import Mathlib

/-!
# Verification of the template-preserving HWPX assembly engine

This file is a shallow embedding, in Lean 4, of the core of
`src/functions/main.py`: the text segmenter (`split_question_text`), the
formatting normalizer (`process_formatting_markers`), the fragment builders
(`_make_paragraph`, `_make_paragraph_with_endnote`), and the document splicer
(`convert_with_template`), together with proofs of the behavioural claims
about them.

Embedding conventions:
* Python strings are modelled as `List Char`; packaged-resource payloads are
  likewise modelled as `List Char` (UTF-8 decoding is the identity on the
  model).  Packaged-resource paths are Lean `String`s.
* `str.splitlines()` and `str.split('\n')` are both modelled as splitting on
  the `'\n'` character (the newline convention of the exam texts).
* Python's whitespace class (for `str.strip()` and the regex `\s`) is
  modelled by the ASCII whitespace characters.
* `re.sub(pat, repl, s)` for the concrete patterns of the source is modelled
  by direct left-to-right scans with the same match semantics (leftmost
  match, continue after the replaced span).  Scans that consume more than
  one character per step are written with an explicit fuel argument equal to
  the input length, so that they are structurally recursive and compute by
  `decide`/`rfl`.
* `random.randint` identifier generation is modelled by an arbitrary
  identifier supply `ids : Nat → Nat` consumed left to right; theorems
  quantify over the supply.
* Python exceptions of the engine (`ValueError`/`KeyError`) are modelled by
  `Except ConvErr`: an empty question list raises `EmptyInput`, a template
  whose content resource is missing or unparsable raises `InvalidTemplate`.
-/

/-- Whitespace predicate modelling Python's `str.strip()` / regex `\s`
(ASCII part). -/
def isPySpace (c : Char) : Bool :=
  c == ' ' || c == '\t' || c == '\n' || c == '\r' || c == '\x0B' || c == '\x0C'

/-- Leading-whitespace removal (`str.lstrip()`). -/
def stripL (l : List Char) : List Char := l.dropWhile isPySpace

/-- Trailing-whitespace removal (`str.rstrip()`). -/
def stripR : List Char → List Char
  | [] => []
  | c :: r =>
    let s := stripR r
    if s = [] then (if isPySpace c then [] else [c]) else c :: s

/-- Both-ends whitespace removal (`str.strip()`). -/
def strip (l : List Char) : List Char := stripL (stripR l)

/-- Split on a separator character, keeping empty pieces
(Python `str.split(sep)`; also used for `str.splitlines()` with `'\n'`). -/
def splitChar (sep : Char) : List Char → List (List Char)
  | [] => [[]]
  | c :: rest =>
    match splitChar sep rest with
    | [] => [[]]
    | h :: t => if c = sep then [] :: h :: t else (c :: h) :: t

/-- Join pieces with a separator (Python `sep.join(...)`). -/
def joinSep (sep : List Char) : List (List Char) → List Char
  | [] => []
  | [a] => a
  | a :: b :: r => a ++ sep ++ joinSep sep (b :: r)

/-- Truncate a text at the first occurrence of the literal pattern `m`:
this is `re.sub(m + '.*', '', text, flags=re.DOTALL)`, whose leftmost match
runs from the first occurrence of `m` to the end of the string. -/
def dropFrom (m : List Char) : List Char → List Char
  | [] => []
  | c :: rest => if m.isPrefixOf (c :: rest) then [] else c :: dropFrom m rest

/-- Boolean substring test (Python's `pat in s`). -/
def containsSub (pat : List Char) : List Char → Bool
  | [] => pat.isEmpty
  | c :: rest => pat.isPrefixOf (c :: rest) || containsSub pat rest

/-- Literal `[정답]` (answer) marker. -/
def markerAnswer : List Char := "[정답]".data

/-- Literal `[해설]` (explanation) marker. -/
def markerExpl : List Char := "[해설]".data

/-- Literal `[문제]` (question/instruction) marker. -/
def markerQuestion : List Char := "[문제]".data

/-- Fuel-indexed scan for `re.sub(r'\[문제\]\s*', '', s)`: every occurrence
of the `[문제]` marker together with the following whitespace run is removed,
scanning left to right and continuing after each removed span. -/
def subMarkerWsF : Nat → List Char → List Char
  | 0, l => l
  | _ + 1, [] => []
  | fuel + 1, c :: rest =>
    if markerQuestion.isPrefixOf (c :: rest) then
      subMarkerWsF fuel ((List.drop markerQuestion.length (c :: rest)).dropWhile isPySpace)
    else c :: subMarkerWsF fuel rest

/-- Removal of all `[문제]`-plus-whitespace spans (fuel instantiated with the
input length, which the scan never exhausts). -/
def subMarkerWs (l : List Char) : List Char := subMarkerWsF l.length l

/-- The ten circled-numeral option markers `①`–`⑩`. -/
def circledNumerals : List Char := "①②③④⑤⑥⑦⑧⑨⑩".data

/-- Does the line start with a circled numeral
(`re.match(r'^[①②③④⑤⑥⑦⑧⑨⑩]', line)`)? -/
def startsWithCircled : List Char → Bool
  | [] => false
  | c :: _ => circledNumerals.contains c

/-- Stem/option scanning loop of `split_question_text` (source lines 65-73):
a sticky flag flips on the first circled-numeral line; lines before the flip
go to the stem, lines from the flip on go to the options. -/
def scanLines : List (List Char) → Bool → List (List Char) × List (List Char)
  | [], _ => ([], [])
  | line :: rest, optionStarted =>
    let optionStarted := optionStarted || startsWithCircled line
    let (stem, opts) := scanLines rest optionStarted
    if optionStarted then (stem, line :: opts) else (line :: stem, opts)

/-- Answer/explanation removal of `split_question_text` (source lines 43-44):
truncate at `[정답]`, strip, truncate at `[해설]`, strip. -/
def cleanText (text : List Char) : List Char :=
  strip (dropFrom markerExpl (strip (dropFrom markerAnswer text)))

/-- Non-empty trimmed lines of the cleaned question text
(source line 46). -/
def qlines (text : List Char) : List (List Char) :=
  ((splitChar '\n' (cleanText text)).map strip).filter (· ≠ [])

/-- The text segmenter `split_question_text` (source lines 37-73): returns
`(instruction, stem, options)`. -/
def split_question_text (text : List Char) : List Char × List Char × List Char :=
  match qlines text with
  | [] => ([], [], [])
  | l0 :: rest =>
    let (instruction, startRest) :=
      if markerQuestion.isPrefixOf l0 then (strip (subMarkerWs l0), rest)
      else if containsSub markerQuestion l0 then (strip (subMarkerWs l0), rest)
      else ([], l0 :: rest)
    let (stemLines, optionLines) := scanLines startRest false
    (instruction, joinSep "\n".data stemLines, joinSep "\n".data optionLines)

/-- Case-insensitive prefix test for the ASCII tag patterns of
`re.IGNORECASE`. -/
def ciIsPrefixOf : List Char → List Char → Bool
  | [], _ => true
  | _ :: _, [] => false
  | p :: ps, c :: cs => (p.toLower == c.toLower) && ciIsPrefixOf ps cs

/-- The literal `<table>` tag. -/
def openTagL : List Char := "<table>".data

/-- The literal `</table>` tag. -/
def closeTagL : List Char := "</table>".data

/-- Non-greedy search for the first (case-insensitive) `</table>`: returns
the text before it and the text after it. -/
def findClose : List Char → Option (List Char × List Char)
  | [] => none
  | c :: rest =>
    if ciIsPrefixOf closeTagL (c :: rest) then
      some ([], List.drop closeTagL.length (c :: rest))
    else
      match findClose rest with
      | some (inner, rem) => some (c :: inner, rem)
      | none => none

/-- Fuel-indexed scan for `re.sub(r'##([^#]+)##', r'**\1**', text)`: a match
is two hashes, a maximal non-empty run of non-hash characters, and two more
hashes; on a match the run is wrapped in `**`; otherwise the scan advances
one character. -/
def subHashF : Nat → List Char → List Char
  | 0, l => l
  | _ + 1, [] => []
  | fuel + 1, c :: rest =>
    if c = '#' then
      match rest with
      | [] => [c]
      | c2 :: t =>
        if c2 = '#' then
          let run := t.takeWhile (· ≠ '#')
          let t' := t.dropWhile (· ≠ '#')
          if run ≠ [] then
            match t' with
            | d1 :: d2 :: u =>
              if d1 = '#' ∧ d2 = '#' then
                "**".data ++ run ++ "**".data ++ subHashF fuel u
              else c :: subHashF fuel rest
            | _ => c :: subHashF fuel rest
          else c :: subHashF fuel rest
        else c :: subHashF fuel rest
    else c :: subHashF fuel rest

/-- The `##...##` → `**...**` rewrite. -/
def subHash (l : List Char) : List Char := subHashF l.length l

/-- Fuel-indexed scan for
`re.sub(r'<table>([\s\S]*?)</table>', '\n⋯\n\1\n⋯\n', text, re.IGNORECASE)`:
at a case-insensitive `<table>` whose remainder contains a `</table>`, the
non-greedy inner span is wrapped in newline-fenced code markers and the scan
continues after the closing tag; otherwise the scan advances one
character. -/
def subTableF : Nat → List Char → List Char
  | 0, l => l
  | _ + 1, [] => []
  | fuel + 1, c :: rest =>
    if ciIsPrefixOf openTagL (c :: rest) then
      match findClose (List.drop openTagL.length (c :: rest)) with
      | some (inner, rem) =>
        "\n```\n".data ++ inner ++ "\n```\n".data ++ subTableF fuel rem
      | none => c :: subTableF fuel rest
    else c :: subTableF fuel rest

/-- The `<table>...</table>` → fenced-block rewrite. -/
def subTable (l : List Char) : List Char := subTableF l.length l

/-- The formatting normalizer `process_formatting_markers`
(source lines 76-87): the hash rewrite followed by the table rewrite. -/
def process_formatting_markers (text : List Char) : List Char :=
  subTable (subHash text)

/-- Does the text contain a case-insensitive `<table>` tag anywhere? -/
def hasOpenTag : List Char → Bool
  | [] => false
  | c :: rest => ciIsPrefixOf openTagL (c :: rest) || hasOpenTag rest

example : subHash "##a##".data = "**a**".data := by decide
example : process_formatting_markers "<table>a</table>".data = "\n```\na\n```\n".data := by decide
example : split_question_text "[문제] q\ns\n① a\n② b\n[정답] ①".data =
    ("q".data, "s".data, "① a\n② b".data) := by decide

/-- Style triple of the template style registry: visual style id, paragraph
property id, character property id. -/
structure StyleProfile where
  style : Nat
  paraPr : Nat
  charPr : Nat
deriving DecidableEq, Repr

/-- The fixed style registry `STYLE_MAP` (source lines 286-292). -/
def STYLE_MAP (role : String) : StyleProfile :=
  if role = "source" then ⟨1, 1, 19⟩
  else if role = "instruction" then ⟨3, 18, 16⟩
  else if role = "stem" then ⟨5, 5, 14⟩
  else if role = "options" then ⟨7, 14, 16⟩
  else if role = "endnote" then ⟨17, 15, 8⟩
  else ⟨0, 0, 0⟩

/-- One content fragment of the template path: the arguments of a
`_make_paragraph` or `_make_paragraph_with_endnote` call made by
`convert_with_template`, before identifier generation and XML rendering. -/
inductive Frag where
  | para (text : List Char) (style_id para_pr_id char_pr_id : Nat)
  | paraEndnote (text : List Char) (style_id para_pr_id char_pr_id : Nat)
      (endnote_text : List Char) (endnote_num : Nat)
      (endnote_char_pr_id endnote_para_pr_id : Nat)
deriving DecidableEq, Repr

/-- Body text of a fragment. -/
def fragText : Frag → List Char
  | .para t _ _ _ => t
  | .paraEndnote t _ _ _ _ _ _ _ => t

/-- Decimal rendering of a number into the model's character lists. -/
def natChars (n : Nat) : List Char := (Nat.repr n).data

/-- Replace every occurrence of the character `c` by the string `rep`
(one `str.replace` step of `_xml_escape`). -/
def replaceChar (c : Char) (rep : List Char) : List Char → List Char
  | [] => []
  | x :: rest => (if x = c then rep else [x]) ++ replaceChar c rep rest

/-- The XML escaper `_xml_escape` (source lines 191-198): the five reserved
characters are replaced in the source's order, `&` first. -/
def xml_escape (text : List Char) : List Char :=
  replaceChar (Char.ofNat 39) "&apos;".data
    (replaceChar '"' "&quot;".data
      (replaceChar '>' "&gt;".data
        (replaceChar '<' "&lt;".data
          (replaceChar '&' "&amp;".data text))))

/-- The plain-paragraph builder `_make_paragraph` (source lines 206-239),
with the generated paragraph identifier passed explicitly. -/
def make_paragraph (text : List Char) (style_id para_pr_id char_pr_id : Nat)
    (pid : Nat) : List Char :=
  let escaped := xml_escape text
  let lines := splitChar '\n' escaped
  let runs_xml := lines.foldl (fun acc line =>
    let line := strip line
    if line = [] then acc
    else acc ++ "<hp:run charPrIDRef=\"".data ++ natChars char_pr_id ++
      "\"><hp:t>".data ++ line ++ "</hp:t></hp:run>".data) []
  let runs_xml :=
    if runs_xml = [] then
      "<hp:run charPrIDRef=\"".data ++ natChars char_pr_id ++
        "\"><hp:t/></hp:run>".data
    else runs_xml
  "<hp:p id=\"".data ++ natChars pid ++ "\" paraPrIDRef=\"".data ++
    natChars para_pr_id ++ "\" styleIDRef=\"".data ++ natChars style_id ++
    "\" pageBreak=\"0\" columnBreak=\"0\" merged=\"0\">".data ++
    runs_xml ++ "</hp:p>".data

/-- The footnote-bearing paragraph builder `_make_paragraph_with_endnote`
(source lines 242-275), with the four generated identifiers passed
explicitly. -/
def make_paragraph_with_endnote (text : List Char)
    (style_id para_pr_id char_pr_id : Nat) (endnote_text : List Char)
    (endnote_num : Nat) (endnote_char_pr_id endnote_para_pr_id : Nat)
    (pid endnote_pid endnote_sub_id inner_pid : Nat) : List Char :=
  let escaped_text := xml_escape text
  let escaped_note := xml_escape endnote_text
  "<hp:p id=\"".data ++ natChars pid ++ "\" paraPrIDRef=\"".data ++
    natChars para_pr_id ++ "\" styleIDRef=\"".data ++ natChars style_id ++
    "\" pageBreak=\"0\" columnBreak=\"0\" merged=\"0\">".data ++
  "<hp:run charPrIDRef=\"".data ++ natChars char_pr_id ++
    "\"><hp:t>".data ++ escaped_text ++ "</hp:t></hp:run>".data ++
  "<hp:run charPrIDRef=\"".data ++ natChars char_pr_id ++ "\">".data ++
  "<hp:ctrl>".data ++
  "<hp:endNote id=\"".data ++ natChars endnote_pid ++
    "\" number=\"".data ++ natChars endnote_num ++ "\">".data ++
  "<hp:subList id=\"".data ++ natChars endnote_sub_id ++
    "\" textDirection=\"HORIZONTAL\" lineWrap=\"BREAK\" vertAlign=\"TOP\" linkListIDRef=\"0\" linkListNextIDRef=\"0\" textWidth=\"0\" textHeight=\"0\" hasTextRef=\"0\" hasNumRef=\"0\">".data ++
  "<hp:p id=\"".data ++ natChars inner_pid ++ "\" paraPrIDRef=\"".data ++
    natChars endnote_para_pr_id ++
    "\" styleIDRef=\"17\" pageBreak=\"0\" columnBreak=\"0\" merged=\"0\">".data ++
  "<hp:run charPrIDRef=\"".data ++ natChars endnote_char_pr_id ++
    "\"><hp:t>".data ++ escaped_note ++ "</hp:t></hp:run>".data ++
  "</hp:p></hp:subList></hp:endNote></hp:ctrl></hp:run></hp:p>".data

/-- Render one fragment to its XML text, consuming identifiers from the
supply `ids` starting at index `k`; returns the text and the next unused
index.  A plain paragraph consumes one identifier, a footnote paragraph
four, exactly as in the source. -/
def renderFrag (ids : Nat → Nat) (k : Nat) : Frag → List Char × Nat
  | .para t s p c => (make_paragraph t s p c (ids k), k + 1)
  | .paraEndnote t s p c nt nn nc np =>
    (make_paragraph_with_endnote t s p c nt nn nc np
      (ids k) (ids (k + 1)) (ids (k + 2)) (ids (k + 3)), k + 4)

/-- Render a fragment sequence to the concatenated content-paragraph
text. -/
def renderFrags (ids : Nat → Nat) : Nat → List Frag → List Char
  | _, [] => []
  | k, f :: rest =>
    let (s, k') := renderFrag ids k f
    s ++ renderFrags ids k' rest

/-- One question record of the request body.  `number` is `none` when the
JSON field is absent (Python defaults it to the 1-based position). -/
structure Question where
  number : Option Nat
  source : List Char
  text : List Char
  answer : List Char
  explanation : List Char
deriving DecidableEq, Repr

/-- Per-question body of the `convert_with_template` loop (source lines
339-408): given the 0-based position `i`, the currently tracked source and
the endnote counter, produce this question's fragments in order (optional
source paragraph, instruction paragraph with optional endnote, stem
paragraphs, option paragraphs, spacer paragraph) and the updated tracked
source and counter. -/
def processQuestion (i : Nat) (q : Question) (current_source : List Char)
    (endnote_counter : Nat) : List Frag × List Char × Nat :=
  let number := q.number.getD (i + 1)
  let emitSource := q.source ≠ [] ∧ q.source ≠ current_source
  let sourceFrags :=
    if emitSource then
      [Frag.para q.source (STYLE_MAP "source").style (STYLE_MAP "source").paraPr
        (STYLE_MAP "source").charPr]
    else []
  let current_source := if emitSource then q.source else current_source
  let instruction := (split_question_text q.text).1
  let passage := (split_question_text q.text).2.1
  let options_text := (split_question_text q.text).2.2
  let instruction_text :=
    if instruction ≠ [] then natChars number ++ ". ".data ++ instruction
    else natChars number ++ ".".data
  let sInst := STYLE_MAP "instruction"
  let hasNote := q.answer ≠ [] ∨ q.explanation ≠ []
  let instFrags :=
    if hasNote then
      let endnote_parts :=
        (if q.answer ≠ [] then ["정답: ".data ++ q.answer] else []) ++
        (if q.explanation ≠ [] then ["해설: ".data ++ q.explanation] else [])
      let endnote_content := joinSep " | ".data endnote_parts
      let sNote := STYLE_MAP "endnote"
      [Frag.paraEndnote instruction_text sInst.style sInst.paraPr sInst.charPr
        endnote_content endnote_counter sNote.charPr sNote.paraPr]
    else [Frag.para instruction_text sInst.style sInst.paraPr sInst.charPr]
  let endnote_counter := if hasNote then endnote_counter + 1 else endnote_counter
  let sStem := STYLE_MAP "stem"
  let stemFrags :=
    if passage ≠ [] then
      (((splitChar '\n' passage).map strip).filter (· ≠ [])).map
        (fun line => Frag.para line sStem.style sStem.paraPr sStem.charPr)
    else []
  let sOpt := STYLE_MAP "options"
  let optFrags :=
    if options_text ≠ [] then
      (((splitChar '\n' options_text).map strip).filter (· ≠ [])).map
        (fun line => Frag.para line sOpt.style sOpt.paraPr sOpt.charPr)
    else []
  let spacer := Frag.para [] sStem.style sStem.paraPr sStem.charPr
  (sourceFrags ++ instFrags ++ stemFrags ++ optFrags ++ [spacer],
    current_source, endnote_counter)

/-- The enumerated question loop of `convert_with_template`, threading the
tracked source and the endnote counter. -/
def convertLoop : List Question → Nat → List Char → Nat → List Frag
  | [], _, _, _ => []
  | q :: rest, i, cs, ec =>
    let (frs, cs', ec') := processQuestion i q cs ec
    frs ++ convertLoop rest (i + 1) cs' ec'

/-- All content fragments of one assembly call: the loop started at
position 0 with empty tracked source and endnote counter 1 (source lines
335-337). -/
def buildFragments (questions : List Question) : List Frag :=
  convertLoop questions 0 [] 1

/-- Failure conditions of the engine: an empty question list, or a template
whose designated content resource is missing or lacks the structural
closing marker. -/
inductive ConvErr where
  | emptyInput
  | invalidTemplate
deriving DecidableEq, Repr

/-- First payload stored under a path in the unpacked container
(`zipfile.ZipFile.read`). -/
def zipLookup (files : List (String × List Char)) (p : String) : Option (List Char) :=
  (files.find? (fun e => e.1 == p)).map (·.2)

/-- The designated mutable content resource. -/
def sectionPath : String := "Contents/section0.xml"

/-- Closing marker of the first structural paragraph. -/
def closePTag : List Char := "</hp:p>".data

/-- Closing marker of the section body appended after the generated
content. -/
def closeSecTag : List Char := "</hs:sec>".data

/-- Split a text at the first occurrence of `pat`: returns the prefix up to
and including `pat` (the structural preamble computation
`section_xml[:first_p_end + len(pat)]`) and the remainder; `none` when
`pat` does not occur (`str.find` returning `-1`). -/
def splitAtFirst (pat : List Char) : List Char → Option (List Char × List Char)
  | [] => none
  | c :: rest =>
    if pat.isPrefixOf (c :: rest) then
      some (pat, List.drop pat.length (c :: rest))
    else
      match splitAtFirst pat rest with
      | some (pre, post) => some (c :: pre, post)
      | none => none

/-- The document splicer `convert_with_template` (source lines 295-422):
unpack the template, locate the structural preamble of
`Contents/section0.xml`, generate and render the content fragments, and
repack the container with only that one resource replaced.  `ids` is the
identifier supply standing for `random.randint`. -/
def convert_with_template (template : List (String × List Char))
    (questions : List Question) (ids : Nat → Nat) :
    Except ConvErr (List (String × List Char)) :=
  if questions = [] then .error .emptyInput
  else
    match zipLookup template sectionPath with
    | none => .error .invalidTemplate
    | some section_xml =>
      match splitAtFirst closePTag section_xml with
      | none => .error .invalidTemplate
      | some (structural_part, _) =>
        let new_section :=
          structural_part ++ renderFrags ids 0 (buildFragments questions) ++
            closeSecTag
        .ok (template.map (fun e =>
          if e.1 = sectionPath then (e.1, new_section) else e))

/-! ## Basic facts about the segmenter's scanning loop -/

/-- Once the option flag is set, every remaining line goes to the
options. -/
theorem scanLines_true (L : List (List Char)) : scanLines L true = ([], L) := by
  induction L with
  | nil => rfl
  | cons l rest ih => simp [scanLines, ih]

/-- With the flag unset, the stem is the longest prefix of non-circled
lines and the options are the rest. -/
theorem scanLines_false (L : List (List Char)) :
    scanLines L false = (L.takeWhile (fun l => !startsWithCircled l),
      L.dropWhile (fun l => !startsWithCircled l)) := by
  induction L with
  | nil => rfl
  | cons l rest ih =>
    by_cases h : startsWithCircled l
    · simp [scanLines, h, scanLines_true]
    · simp [scanLines, h, ih]

/-- When the predicate holds on the first `k` elements and fails at index
`k`, `takeWhile` and `dropWhile` cut exactly at `k`. -/
theorem takeWhile_eq_take_of_first {α : Type} (p : α → Bool) (d : α) :
    ∀ (L : List α) (k : Nat), k < L.length →
      (∀ l ∈ L.take k, p l = true) → p (L.getD k d) = false →
      L.takeWhile p = L.take k ∧ L.dropWhile p = L.drop k := by
  intro L
  induction L with
  | nil => intro k hk _ _; simp at hk
  | cons a rest ih =>
    intro k hk hb ha
    cases k with
    | zero =>
      simp only [List.getD_cons_zero] at ha
      simp [List.takeWhile_cons, List.dropWhile_cons, ha]
    | succ k =>
      have hpa : p a = true := hb a (by simp [List.take_succ_cons])
      have hrec := ih k (by simpa using hk)
        (fun l hl => hb l (by simp [List.take_succ_cons, hl]))
        (by simpa using ha)
      simp [List.takeWhile_cons, List.dropWhile_cons, hpa, hrec.1, hrec.2,
        List.take_succ_cons]

/-! ## Basic facts about splitting, joining and substring search -/

/-- A prefix test that succeeds forces a substring test to succeed. -/
theorem containsSub_of_isPrefixOf {p l : List Char}
    (hp : p.isPrefixOf l = true) (hne : p ≠ []) : containsSub p l = true := by
  cases l with
  | nil =>
    cases p with
    | nil => exact absurd rfl hne
    | cons a as => simp [List.isPrefixOf] at hp
  | cons c r => simp [containsSub, hp]

/-- The boolean substring test decides the infix relation. -/
theorem containsSub_iff (p : List Char) :
    ∀ l : List Char, containsSub p l = true ↔ p <:+: l := by
  intro l
  induction l with
  | nil =>
    simp only [containsSub, List.isEmpty_iff]
    constructor
    · rintro rfl; exact List.infix_rfl
    · intro h
      have := List.sublist_nil.mp h.sublist
      simp [this]
  | cons c r ih =>
    simp only [containsSub, Bool.or_eq_true, List.isPrefixOf_iff_prefix, ih,
      List.infix_cons_iff]

/-- Unfolding of the segmenter once the cleaned line list is known to be
non-empty. -/
theorem split_question_text_cons {t l0 : List Char} {rest : List (List Char)}
    (h : qlines t = l0 :: rest) :
    split_question_text t =
      if containsSub markerQuestion l0 = true then
        (strip (subMarkerWs l0), joinSep "\n".data (scanLines rest false).1,
          joinSep "\n".data (scanLines rest false).2)
      else
        ([], joinSep "\n".data (scanLines (l0 :: rest) false).1,
          joinSep "\n".data (scanLines (l0 :: rest) false).2) := by
  unfold split_question_text
  rw [h]
  by_cases hc : containsSub markerQuestion l0 = true
  · rw [if_pos hc]
    by_cases hp : markerQuestion.isPrefixOf l0 = true
    · simp [hp]
    · simp [hp, hc]
  · have hp : ¬ markerQuestion.isPrefixOf l0 = true := fun hp =>
      hc (containsSub_of_isPrefixOf hp (by decide))
    rw [if_neg hc]
    simp [hp, hc]

/-- Splitting never yields an empty piece list. -/
theorem splitChar_ne_nil (sep : Char) : ∀ l : List Char, splitChar sep l ≠ [] := by
  intro l
  cases l with
  | nil => simp [splitChar]
  | cons c rest =>
    simp only [splitChar]
    rcases h : splitChar sep rest with _ | ⟨hd, tl⟩
    · simp
    · by_cases hc : c = sep <;> simp [hc]

/-- Unfolding of `splitChar` on a cons cell, given the split of the
tail. -/
theorem splitChar_cons_eq (sep c : Char) {rest h0 : List Char}
    {t0 : List (List Char)} (h : splitChar sep rest = h0 :: t0) :
    splitChar sep (c :: rest) =
      if c = sep then [] :: h0 :: t0 else (c :: h0) :: t0 := by
  simp only [splitChar, h]

/-- No piece of a split contains the separator. -/
theorem splitChar_sep_not_mem (sep : Char) :
    ∀ l : List Char, ∀ p ∈ splitChar sep l, sep ∉ p := by
  intro l
  induction l with
  | nil => intro p hp; simp [splitChar] at hp; simp [hp]
  | cons c rest ih =>
    intro p hp
    rcases h : splitChar sep rest with _ | ⟨hd, tl⟩
    · exact absurd h (splitChar_ne_nil sep rest)
    · rw [splitChar_cons_eq sep c h] at hp
      by_cases hc : c = sep
      · rw [if_pos hc] at hp
        rcases List.mem_cons.mp hp with rfl | hp'
        · simp
        · exact ih p (h ▸ hp')
      · rw [if_neg hc] at hp
        rcases List.mem_cons.mp hp with rfl | hp'
        · intro hmem
          rcases List.mem_cons.mp hmem with rfl | hmem'
          · exact hc rfl
          · exact ih hd (h ▸ List.mem_cons_self hd tl) hmem'
        · exact ih p (h ▸ List.mem_cons_of_mem hd hp')

/-- The first piece of a split is a prefix of the input. -/
theorem splitChar_head_isPre (sep : Char) :
    ∀ (l hd : List Char) (tl : List (List Char)),
      splitChar sep l = hd :: tl → hd <+: l := by
  intro l
  induction l with
  | nil =>
    intro hd tl h
    simp only [splitChar] at h
    cases h
    exact List.nil_prefix
  | cons c rest ih =>
    intro hd tl h
    rcases hr : splitChar sep rest with _ | ⟨h0, t0⟩
    · exact absurd hr (splitChar_ne_nil sep rest)
    · rw [splitChar_cons_eq sep c hr] at h
      by_cases hc : c = sep
      · rw [if_pos hc] at h
        cases h
        exact List.nil_prefix
      · rw [if_neg hc] at h
        cases h
        exact List.cons_prefix_cons.mpr ⟨rfl, ih _ _ hr⟩

/-- Every piece of a split is an infix of the input. -/
theorem mem_splitChar_within (sep : Char) :
    ∀ l p : List Char, p ∈ splitChar sep l → p <:+: l := by
  intro l
  induction l with
  | nil => intro p hp; simp [splitChar] at hp; simp [hp]
  | cons c rest ih =>
    intro p hp
    rcases hr : splitChar sep rest with _ | ⟨h0, t0⟩
    · exact absurd hr (splitChar_ne_nil sep rest)
    · rw [splitChar_cons_eq sep c hr] at hp
      by_cases hc : c = sep
      · rw [if_pos hc] at hp
        rcases List.mem_cons.mp hp with rfl | hp'
        · exact List.nil_infix
        · exact List.infix_cons (ih p (hr ▸ hp'))
      · rw [if_neg hc] at hp
        rcases List.mem_cons.mp hp with rfl | hp'
        · exact (List.cons_prefix_cons.mpr ⟨rfl, splitChar_head_isPre sep rest h0 t0 hr⟩).isInfix
        · exact List.infix_cons (ih p (hr ▸ List.mem_cons_of_mem h0 hp'))

/-- A separator-free text splits into itself alone. -/
theorem splitChar_of_not_mem (sep : Char) :
    ∀ l : List Char, sep ∉ l → splitChar sep l = [l] := by
  intro l
  induction l with
  | nil => intro _; rfl
  | cons c rest ih =>
    intro h
    have hc : ¬ c = sep := fun hc => h (hc ▸ List.mem_cons_self c rest)
    have hrest : sep ∉ rest := fun hm => h (List.mem_cons_of_mem c hm)
    simp [splitChar, ih hrest, hc]

/-- Splitting distributes over a separator-free chunk followed by an
explicit separator. -/
theorem splitChar_append_sep (sep : Char) :
    ∀ a y : List Char, sep ∉ a →
      splitChar sep (a ++ sep :: y) = a :: splitChar sep y := by
  intro a
  induction a with
  | nil =>
    intro y _
    rcases hy : splitChar sep y with _ | ⟨h0, t0⟩
    · exact absurd hy (splitChar_ne_nil sep y)
    · simp [splitChar, hy]
  | cons c a' ih =>
    intro y h
    have hc : ¬ c = sep := fun hc => h (hc ▸ List.mem_cons_self c a')
    have ha' : sep ∉ a' := fun hm => h (List.mem_cons_of_mem c hm)
    simp [splitChar, ih y ha', hc]

/-- Joining separator-free pieces and re-splitting recovers the pieces. -/
theorem splitChar_joinSep (sep : Char) :
    ∀ L : List (List Char), L ≠ [] → (∀ p ∈ L, sep ∉ p) →
      splitChar sep (joinSep [sep] L) = L := by
  intro L
  induction L with
  | nil => intro h _; exact absurd rfl h
  | cons a R ih =>
    intro _ hfree
    cases R with
    | nil => exact splitChar_of_not_mem sep a (hfree a (List.mem_cons_self a []))
    | cons b r =>
      have : joinSep [sep] (a :: b :: r) = a ++ sep :: joinSep [sep] (b :: r) := by
        simp [joinSep]
      rw [this, splitChar_append_sep sep a _ (hfree a (List.mem_cons_self a _)),
        ih (by simp) (fun p hp => hfree p (List.mem_cons_of_mem a hp))]

/-- The head of a non-empty `dropWhile` result fails the predicate. -/
theorem dropWhile_eq_cons_head {α : Type} (p : α → Bool) :
    ∀ (L : List α) (d : α) (ds : List α), L.dropWhile p = d :: ds → p d = false := by
  intro L
  induction L with
  | nil => intro d ds h; simp at h
  | cons a rest ih =>
    intro d ds h
    rw [List.dropWhile_cons] at h
    by_cases hp : p a
    · rw [if_pos (by simpa using hp)] at h
      exact ih d ds h
    · rw [if_neg (by simpa using hp)] at h
      cases h
      simpa using hp

/-- The trailing strip keeps a prefix of the input. -/
theorem stripR_isPre : ∀ l : List Char, stripR l <+: l := by
  intro l
  induction l with
  | nil => simp [stripR]
  | cons c r ih =>
    simp only [stripR]
    by_cases h : stripR r = []
    · rw [if_pos h]
      by_cases hc : isPySpace c
      · simp [hc]
      · simp [hc, List.cons_prefix_cons]
    · rw [if_neg h]
      exact List.cons_prefix_cons.mpr ⟨rfl, ih⟩

/-- Stripping yields an infix of the input. -/
theorem strip_within (l : List Char) : strip l <:+: l :=
  (List.dropWhile_suffix isPySpace).isInfix.trans (stripR_isPre l).isInfix

/-- Segmented lines never contain a newline. -/
theorem mem_qlines_no_nl {t l : List Char} (hl : l ∈ qlines t) : '\n' ∉ l := by
  unfold qlines at hl
  rcases List.mem_filter.mp hl with ⟨hmem, _⟩
  rcases List.mem_map.mp hmem with ⟨piece, hpiece, rfl⟩
  intro hn
  exact splitChar_sep_not_mem '\n' (cleanText t) piece hpiece
    ((strip_within piece).subset hn)

/-- A non-empty line keeps its circled-numeral status under appending. -/
theorem startsWithCircled_append {x y : List Char} (hx : x ≠ []) :
    startsWithCircled (x ++ y) = startsWithCircled x := by
  cases x with
  | nil => exact absurd rfl hx
  | cons c r => rfl

/-- Joint stem/options invariant of the scanning loop, for any newline-free
line list. -/
theorem scan_stem_opts_good (X : List (List Char)) (hX : ∀ l ∈ X, '\n' ∉ l) :
    (∀ l ∈ splitChar '\n' (joinSep "\n".data (scanLines X false).1),
      startsWithCircled l = false) ∧
    (joinSep "\n".data (scanLines X false).2 ≠ [] →
      startsWithCircled (joinSep "\n".data (scanLines X false).2) = true) := by
  rw [scanLines_false]
  dsimp only
  constructor
  · intro l hl
    rcases hTW : X.takeWhile (fun l => !startsWithCircled l) with _ | ⟨a, as⟩
    · rw [hTW] at hl
      simp only [joinSep, splitChar] at hl
      rcases List.mem_cons.mp hl with rfl | h'
      · rfl
      · simp at h'
    · rw [hTW] at hl
      rw [splitChar_joinSep '\n' (a :: as) (by simp)
          (fun p hp => hX p (List.takeWhile_subset _ (hTW ▸ hp)))] at hl
      have := List.mem_takeWhile_imp (hTW ▸ hl)
      simpa using this
  · intro hne
    rcases hDW : X.dropWhile (fun l => !startsWithCircled l) with _ | ⟨d, ds⟩
    · rw [hDW] at hne
      simp [joinSep] at hne
    · rw [hDW] at hne
      have hd := dropWhile_eq_cons_head _ X d ds hDW
      have hcirc : startsWithCircled d = true := by simpa using hd
      have hdne : d ≠ [] := by
        intro h
        rw [h] at hcirc
        simp [startsWithCircled] at hcirc
      cases ds with
      | nil => simpa [joinSep] using hcirc
      | cons e es =>
        have : joinSep "\n".data (d :: e :: es) =
            d ++ ("\n".data ++ joinSep "\n".data (e :: es)) := by
          simp [joinSep]
        rw [this, startsWithCircled_append hdne]
        exact hcirc

/-- C10: for every input text the segmenter's outputs satisfy: no line of
the stem begins with a circled numeral `①`–`⑩`, and whenever the options
output is non-empty its first line (hence the output itself) begins with a
circled numeral. -/
theorem C10_segmenter_invariant (t : List Char) :
    (∀ l ∈ splitChar '\n' (split_question_text t).2.1,
      startsWithCircled l = false) ∧
    ((split_question_text t).2.2 ≠ [] →
      startsWithCircled (split_question_text t).2.2 = true) := by
  rcases hL : qlines t with _ | ⟨l0, rest⟩
  · have hs : split_question_text t = ([], [], []) := by
      unfold split_question_text
      rw [hL]
    rw [hs]
    constructor
    · intro l hl
      simp only [splitChar] at hl
      rcases List.mem_cons.mp hl with rfl | h'
      · rfl
      · simp at h'
    · intro h; exact absurd rfl h
  · have hmem : ∀ l ∈ l0 :: rest, '\n' ∉ l := fun l hl =>
      mem_qlines_no_nl (hL ▸ hl)
    rw [split_question_text_cons hL]
    by_cases hc : containsSub markerQuestion l0 = true
    · rw [if_pos hc]
      exact scan_stem_opts_good rest
        (fun l hl => hmem l (List.mem_cons_of_mem l0 hl))
    · rw [if_neg hc]
      exact scan_stem_opts_good (l0 :: rest) hmem

/-- Witness for C10 at a concrete three-line text whose third line does not
start with a circled numeral. -/
theorem C10_segmenter_invariant_witness :
    startsWithCircled (split_question_text "a\n①b\nc".data).2.2 = true :=
  (C10_segmenter_invariant "a\n①b\nc".data).2 (by decide)

/-- C9: the `[문제]` check applies exactly to the first non-empty line of
the cleaned text.  When that line begins with (or merely contains) the
marker, every `[문제]`-plus-whitespace span is removed from it and the
stripped remainder becomes the instruction, and the line is consumed (only
the later lines are scanned into stem/options); otherwise the instruction
is empty and no line is consumed.  In both cases the later lines go through
the circled-numeral scan only, so the check never reactivates on them. -/
theorem C9_instruction_extraction (t l0 : List Char) (rest : List (List Char))
    (h : qlines t = l0 :: rest) :
    (containsSub markerQuestion l0 = true →
      split_question_text t = (strip (subMarkerWs l0),
        joinSep "\n".data (scanLines rest false).1,
        joinSep "\n".data (scanLines rest false).2)) ∧
    (containsSub markerQuestion l0 = false →
      split_question_text t = ([],
        joinSep "\n".data (scanLines (l0 :: rest) false).1,
        joinSep "\n".data (scanLines (l0 :: rest) false).2)) := by
  rw [split_question_text_cons h]
  constructor
  · intro hc
    rw [if_pos hc]
  · intro hc
    rw [if_neg (by simp [hc])]

/-- Witness for C9: a first line carrying the `[문제]` marker is consumed
into the instruction and the remaining two lines are scanned. -/
theorem C9_instruction_extraction_witness :
    split_question_text "[문제] 물음\n지문\n①가".data =
      (strip (subMarkerWs "[문제] 물음".data),
        joinSep "\n".data (scanLines ["지문".data, "①가".data] false).1,
        joinSep "\n".data (scanLines ["지문".data, "①가".data] false).2) :=
  (C9_instruction_extraction "[문제] 물음\n지문\n①가".data "[문제] 물음".data
    ["지문".data, "①가".data] (by decide)).1 (by decide)

/-- C5 (amended): for text whose cleaned line list has its first
circled-numeral line at position `k` (no earlier line is
circled-numeral-prefixed), and where the circled line is not itself the
leading `[문제]`-marked line, the stem consists of lines `[0,k)` minus the
optional leading `[문제]` line and the options consist of lines `[k,n)`. -/
theorem C5_option_split_amended (t : List Char) (k : Nat)
    (hk : k < (qlines t).length)
    (hbefore : ∀ l ∈ (qlines t).take k, startsWithCircled l = false)
    (hat : startsWithCircled ((qlines t).getD k []) = true)
    (hguard : containsSub markerQuestion ((qlines t).getD 0 []) = true → 0 < k) :
    (split_question_text t).2.1 = joinSep "\n".data
      (if containsSub markerQuestion ((qlines t).getD 0 []) = true
        then ((qlines t).take k).drop 1 else (qlines t).take k) ∧
    (split_question_text t).2.2 = joinSep "\n".data ((qlines t).drop k) := by
  rcases hL : qlines t with _ | ⟨l0, rest⟩
  · rw [hL] at hk
    simp at hk
  · rw [hL] at hk hbefore hat hguard
    rw [split_question_text_cons hL]
    simp only [List.getD_cons_zero] at hguard ⊢
    by_cases hc : containsSub markerQuestion l0 = true
    · rw [if_pos hc, if_pos hc]
      obtain ⟨k', rfl⟩ : ∃ k', k = k' + 1 := by
        rcases k with _ | k'
        · exact absurd (hguard hc) (by simp)
        · exact ⟨k', rfl⟩
      have hrec := takeWhile_eq_take_of_first (fun l => !startsWithCircled l)
        [] rest k' (by simpa using hk)
        (fun l hl => by
          have : l ∈ (l0 :: rest).take (k' + 1) := by
            rw [List.take_succ_cons]
            exact List.mem_cons_of_mem l0 hl
          simp [hbefore l this])
        (by
          simp only [List.getD_cons_succ] at hat
          simp only [hat]
          rfl)
      rw [scanLines_false]
      dsimp only
      rw [hrec.1, hrec.2]
      constructor
      · rw [List.take_succ_cons]
        simp
      · rw [List.drop_succ_cons]
    · rw [if_neg hc, if_neg hc]
      have hrec := takeWhile_eq_take_of_first (fun l => !startsWithCircled l)
        [] (l0 :: rest) k hk
        (fun l hl => by simp [hbefore l hl])
        (by
          simp only [hat]
          rfl)
      rw [scanLines_false]
      dsimp only
      rw [hrec.1, hrec.2]
      exact ⟨rfl, rfl⟩

/-- Witness for C5: four cleaned lines with the single circled-numeral line
at position 2, behind a leading `[문제]` line; the stem is line 1 and the
options are lines 2 and 3 (the non-circled trailing line included). -/
theorem C5_option_split_amended_witness :
    (split_question_text "[문제]q\ns\n①a\nb".data).2.1 = "s".data ∧
    (split_question_text "[문제]q\ns\n①a\nb".data).2.2 = "①a\nb".data := by
  have h := C5_option_split_amended "[문제]q\ns\n①a\nb".data 2 (by decide)
    (by decide) (by decide) (fun _ => by decide)
  constructor
  · rw [h.1]
    decide
  · rw [h.2]
    decide

/-- Counterexample to C5 as stated: in the text `"①[문제]x\nfoo"` the
unique circled-numeral-prefixed line sits at position `k = 0` among `n = 2`
non-empty lines, so the claim requires both lines `[0,2)` to land in the
options; but that line also contains the `[문제]` marker, so the code
consumes it as the instruction line and the options come out empty. -/
theorem C5_counterexample :
    (qlines "①[문제]x\nfoo".data).length = 2 ∧
    startsWithCircled ((qlines "①[문제]x\nfoo".data).getD 0 []) = true ∧
    startsWithCircled ((qlines "①[문제]x\nfoo".data).getD 1 []) = false ∧
    (split_question_text "①[문제]x\nfoo".data).2.2 ≠
      joinSep "\n".data ((qlines "①[문제]x\nfoo".data).drop 0) ∧
    (split_question_text "①[문제]x\nfoo".data).2.2 = [] := by decide

/-! ## Characterizing the per-question fragment generation -/

/-- Instruction-paragraph text of a question: `"{number}. {instruction}"`,
or `"{number}."` when the segmented instruction is empty. -/
def instrText (i : Nat) (q : Question) : List Char :=
  if (split_question_text q.text).1 ≠ [] then
    natChars (q.number.getD (i + 1)) ++ ". ".data ++ (split_question_text q.text).1
  else natChars (q.number.getD (i + 1)) ++ ".".data

/-- Endnote text of a question: answer and explanation parts joined with
`" | "`. -/
def noteText (q : Question) : List Char :=
  joinSep " | ".data
    ((if q.answer ≠ [] then ["정답: ".data ++ q.answer] else []) ++
     (if q.explanation ≠ [] then ["해설: ".data ++ q.explanation] else []))

/-- Non-empty stripped lines of a multi-line block (the per-line fragment
loops of the splicer). -/
def bodyLines (x : List Char) : List (List Char) :=
  ((splitChar '\n' x).map strip).filter (· ≠ [])

/-- Empty block, no body lines. -/
theorem bodyLines_nil : bodyLines [] = [] := rfl

/-- Explicit form of the per-question fragment generation. -/
theorem processQuestion_eq (i : Nat) (q : Question) (cs : List Char) (ec : Nat) :
    processQuestion i q cs ec =
      ((if q.source ≠ [] ∧ q.source ≠ cs then
          [Frag.para q.source (STYLE_MAP "source").style
            (STYLE_MAP "source").paraPr (STYLE_MAP "source").charPr]
        else []) ++
        (if q.answer ≠ [] ∨ q.explanation ≠ [] then
          [Frag.paraEndnote (instrText i q) (STYLE_MAP "instruction").style
            (STYLE_MAP "instruction").paraPr (STYLE_MAP "instruction").charPr
            (noteText q) ec (STYLE_MAP "endnote").charPr
            (STYLE_MAP "endnote").paraPr]
        else
          [Frag.para (instrText i q) (STYLE_MAP "instruction").style
            (STYLE_MAP "instruction").paraPr (STYLE_MAP "instruction").charPr]) ++
        (bodyLines (split_question_text q.text).2.1).map
          (fun l => Frag.para l (STYLE_MAP "stem").style
            (STYLE_MAP "stem").paraPr (STYLE_MAP "stem").charPr) ++
        (bodyLines (split_question_text q.text).2.2).map
          (fun l => Frag.para l (STYLE_MAP "options").style
            (STYLE_MAP "options").paraPr (STYLE_MAP "options").charPr) ++
        [Frag.para [] (STYLE_MAP "stem").style (STYLE_MAP "stem").paraPr
          (STYLE_MAP "stem").charPr],
       (if q.source ≠ [] ∧ q.source ≠ cs then q.source else cs),
       (if q.answer ≠ [] ∨ q.explanation ≠ [] then ec + 1 else ec)) := by
  simp only [processQuestion, instrText, noteText, bodyLines]
  by_cases hp : (split_question_text q.text).2.1 = [] <;>
    by_cases ho : (split_question_text q.text).2.2 = [] <;>
    simp [hp, ho, splitChar, strip, stripL, stripR]

/-! ## Footnote sequence numbers (C6) -/

/-- The endnote sequence numbers carried by a fragment list, in emission
order. -/
def endnoteNums (l : List Frag) : List Nat :=
  l.filterMap (fun f => match f with
    | .paraEndnote _ _ _ _ _ n _ _ => some n
    | _ => none)

/-- Does the question carry a non-empty answer or explanation? -/
def hasNoteB (q : Question) : Bool := !q.answer.isEmpty || !q.explanation.isEmpty

/-- Boolean/propositional bridge for `hasNoteB`. -/
theorem hasNoteB_iff (q : Question) :
    hasNoteB q = true ↔ (q.answer ≠ [] ∨ q.explanation ≠ []) := by
  simp [hasNoteB, List.isEmpty_iff]

/-- Endnote numbers distribute over fragment concatenation. -/
theorem endnoteNums_append (a b : List Frag) :
    endnoteNums (a ++ b) = endnoteNums a ++ endnoteNums b :=
  List.filterMap_append a b _

/-- A leading plain paragraph carries no endnote number. -/
theorem endnoteNums_para_single (t : List Char) (s p c : Nat) (l : List Frag) :
    endnoteNums (Frag.para t s p c :: l) = endnoteNums l := by
  simp [endnoteNums, List.filterMap_cons]

/-- A leading footnote-bearing paragraph contributes exactly its number. -/
theorem endnoteNums_paraEndnote_single (t : List Char) (s p c : Nat)
    (nt : List Char) (n nc np : Nat) (l : List Frag) :
    endnoteNums (Frag.paraEndnote t s p c nt n nc np :: l) =
      n :: endnoteNums l := by
  simp [endnoteNums, List.filterMap_cons]

/-- Plain-paragraph fragment lists carry no endnote numbers. -/
theorem endnoteNums_paraMap (L : List (List Char)) (s p c : Nat) :
    endnoteNums (L.map (fun l => Frag.para l s p c)) = [] := by
  induction L with
  | nil => rfl
  | cons a L ih => simp [endnoteNums, List.filterMap_cons] at ih ⊢

/-- The endnote numbers of one assembly loop run from the initial counter
in unit steps, one per answer/explanation-bearing question. -/
theorem endnoteNums_convertLoop (qs : List Question) :
    ∀ (i : Nat) (cs : List Char) (ec : Nat),
      endnoteNums (convertLoop qs i cs ec) =
        List.range' ec (qs.countP hasNoteB) := by
  induction qs with
  | nil => intro i cs ec; simp [convertLoop, endnoteNums, List.countP_nil]
  | cons q rest ih =>
    intro i cs ec
    simp only [convertLoop, processQuestion_eq]
    rw [List.countP_cons]
    by_cases hn : q.answer ≠ [] ∨ q.explanation ≠ []
    · have hb : hasNoteB q = true := (hasNoteB_iff q).mpr hn
      by_cases hs : q.source ≠ [] ∧ q.source ≠ cs <;>
        simp [hs, hn, hb, endnoteNums_append, endnoteNums_paraMap,
          endnoteNums_para_single, endnoteNums_paraEndnote_single, ih,
          List.range'_succ]
    · have hb : hasNoteB q = false := by
        rcases h : hasNoteB q with _ | _
        · rfl
        · exact absurd ((hasNoteB_iff q).mp h) hn
      by_cases hs : q.source ≠ [] ∧ q.source ≠ cs <;>
        simp [hs, hn, hb, endnoteNums_append, endnoteNums_paraMap,
          endnoteNums_para_single, endnoteNums_paraEndnote_single, ih]

/-- C6: across one assembly call the footnote sequence numbers assigned to
footnote-bearing fragments are exactly `1, 2, …, m` in order, where `m` is
the number of questions carrying a non-empty answer or explanation — they
start at 1, increase strictly, and the counter is bumped exactly once per
such question and never otherwise. -/
theorem C6_endnote_numbering (questions : List Question) :
    endnoteNums (buildFragments questions) =
      List.range' 1 (questions.countP hasNoteB) :=
  endnoteNums_convertLoop questions 0 [] 1

/-! ## Source-paragraph emission (C8) -/

/-- Is the fragment a source paragraph (the source style triple of the
style registry)? -/
def isSourceFrag : Frag → Bool
  | .para _ s p c =>
    s == (STYLE_MAP "source").style && p == (STYLE_MAP "source").paraPr &&
      c == (STYLE_MAP "source").charPr
  | _ => false

/-- Texts of the source paragraphs of a fragment list, in order. -/
def sourceTexts (l : List Frag) : List (List Char) :=
  l.filterMap (fun f => if isSourceFrag f then some (fragText f) else none)

/-- Source texts distribute over concatenation. -/
theorem sourceTexts_append (a b : List Frag) :
    sourceTexts (a ++ b) = sourceTexts a ++ sourceTexts b :=
  List.filterMap_append a b _

/-- Stem-styled paragraph lists contribute no source texts. -/
theorem sourceTexts_stemMap (L : List (List Char)) :
    sourceTexts (L.map (fun l => Frag.para l (STYLE_MAP "stem").style
      (STYLE_MAP "stem").paraPr (STYLE_MAP "stem").charPr)) = [] := by
  induction L with
  | nil => rfl
  | cons a L ih =>
    have hf : isSourceFrag (Frag.para a (STYLE_MAP "stem").style
        (STYLE_MAP "stem").paraPr (STYLE_MAP "stem").charPr) = false := by
      simp only [isSourceFrag]
      decide
    simpa [sourceTexts, List.filterMap_cons, hf] using ih

/-- Options-styled paragraph lists contribute no source texts. -/
theorem sourceTexts_optMap (L : List (List Char)) :
    sourceTexts (L.map (fun l => Frag.para l (STYLE_MAP "options").style
      (STYLE_MAP "options").paraPr (STYLE_MAP "options").charPr)) = [] := by
  induction L with
  | nil => rfl
  | cons a L ih =>
    have hf : isSourceFrag (Frag.para a (STYLE_MAP "options").style
        (STYLE_MAP "options").paraPr (STYLE_MAP "options").charPr) = false := by
      simp only [isSourceFrag]
      decide
    simpa [sourceTexts, List.filterMap_cons, hf] using ih

/-- Registry value for the source role. -/
theorem STYLE_MAP_source_val : STYLE_MAP "source" = ⟨1, 1, 19⟩ := rfl

/-- Registry value for the instruction role. -/
theorem STYLE_MAP_instruction_val : STYLE_MAP "instruction" = ⟨3, 18, 16⟩ := rfl

/-- Registry value for the stem role. -/
theorem STYLE_MAP_stem_val : STYLE_MAP "stem" = ⟨5, 5, 14⟩ := rfl

/-- Registry value for the options role. -/
theorem STYLE_MAP_options_val : STYLE_MAP "options" = ⟨7, 14, 16⟩ := rfl

/-- Registry value for the endnote role. -/
theorem STYLE_MAP_endnote_val : STYLE_MAP "endnote" = ⟨17, 15, 8⟩ := rfl

/-- One question's source paragraphs: exactly one (its own source) when the
source is non-empty and new, none otherwise; and the tracked source updates
accordingly. -/
theorem sourceTexts_processQuestion (i : Nat) (q : Question) (cs : List Char)
    (ec : Nat) :
    sourceTexts (processQuestion i q cs ec).1 =
      (if q.source ≠ [] ∧ q.source ≠ cs then [q.source] else []) ∧
    (processQuestion i q cs ec).2.1 =
      (if q.source ≠ [] ∧ q.source ≠ cs then q.source else cs) := by
  rw [processQuestion_eq]
  have hsrc : isSourceFrag (Frag.para q.source (STYLE_MAP "source").style
      (STYLE_MAP "source").paraPr (STYLE_MAP "source").charPr) = true := by
    simp only [isSourceFrag]
    decide
  have hinst : ∀ t, isSourceFrag (Frag.para t (STYLE_MAP "instruction").style
      (STYLE_MAP "instruction").paraPr (STYLE_MAP "instruction").charPr) = false := by
    intro t
    simp only [isSourceFrag]
    decide
  by_cases hs : q.source ≠ [] ∧ q.source ≠ cs <;>
    by_cases hn : q.answer ≠ [] ∨ q.explanation ≠ [] <;>
    simp [hs, hn, sourceTexts_append, sourceTexts_stemMap, sourceTexts_optMap,
      sourceTexts, List.filterMap_cons, hsrc, hinst, fragText, isSourceFrag,
      STYLE_MAP_source_val, STYLE_MAP_instruction_val, STYLE_MAP_stem_val,
      STYLE_MAP_options_val, STYLE_MAP_endnote_val]

/-- C8: during one assembly call a source paragraph fragment is emitted for
a question exactly when its source field is non-empty and differs from the
currently tracked source (and then the tracked source is updated to it); in
particular two consecutive questions sharing one non-empty source produce
exactly one source paragraph, placed at the very head of the first
question's fragments. -/
theorem C8_source_emission :
    (∀ (i : Nat) (q : Question) (cs : List Char) (ec : Nat),
      sourceTexts (processQuestion i q cs ec).1 =
        (if q.source ≠ [] ∧ q.source ≠ cs then [q.source] else []) ∧
      (processQuestion i q cs ec).2.1 =
        (if q.source ≠ [] ∧ q.source ≠ cs then q.source else cs)) ∧
    (∀ q1 q2 : Question, q1.source ≠ [] → q2.source = q1.source →
      sourceTexts (buildFragments [q1, q2]) = [q1.source] ∧
      (buildFragments [q1, q2]).head? = some (Frag.para q1.source
        (STYLE_MAP "source").style (STYLE_MAP "source").paraPr
        (STYLE_MAP "source").charPr)) := by
  constructor
  · exact sourceTexts_processQuestion
  · intro q1 q2 h1 h2
    have hc1 : q1.source ≠ [] ∧ q1.source ≠ ([] : List Char) := ⟨h1, h1⟩
    have hc2 : ¬ (q2.source ≠ [] ∧ q2.source ≠ q1.source) := by
      simp [h2]
    have hsrc : isSourceFrag (Frag.para q1.source (STYLE_MAP "source").style
        (STYLE_MAP "source").paraPr (STYLE_MAP "source").charPr) = true := by
      simp only [isSourceFrag]
      decide
    have hfirst := sourceTexts_processQuestion 0 q1 [] 1
    have hsecond := sourceTexts_processQuestion 1 q2
      (processQuestion 0 q1 [] 1).2.1 (processQuestion 0 q1 [] 1).2.2
    rw [if_pos hc1] at hfirst
    constructor
    · have hloop : buildFragments [q1, q2] = (processQuestion 0 q1 [] 1).1 ++
          ((processQuestion 1 q2 (processQuestion 0 q1 [] 1).2.1
            (processQuestion 0 q1 [] 1).2.2).1 ++ []) := by
        simp only [buildFragments, convertLoop]
      rw [hloop, sourceTexts_append, sourceTexts_append, hfirst.1, hsecond.1,
        hfirst.2]
      rw [if_neg (by rw [if_pos hc1]; exact hc2)]
      simp [sourceTexts]
    · rw [buildFragments, convertLoop, processQuestion_eq]
      simp [hc1]

/-- Witness for C8: two concrete questions sharing the source `"연습"`
produce exactly one leading source paragraph. -/
theorem C8_source_emission_witness :
    sourceTexts (buildFragments
      [⟨some 1, "연습".data, "문1".data, [], []⟩,
       ⟨some 2, "연습".data, "문2".data, [], []⟩]) = ["연습".data] :=
  (C8_source_emission.2 ⟨some 1, "연습".data, "문1".data, [], []⟩
    ⟨some 2, "연습".data, "문2".data, [], []⟩ (by decide) rfl).1

/-! ## Absence of normalization in the template path (C2) -/

/-- Modelled from the spec (§4.5 step 3 with §4.2, "Segment and normalize
`QuestionRecord.text`"): the per-question fragment generation exactly as the
specification words it — identical to `processQuestion` except that each of
the three segmented parts is passed through the formatting normalizer
before fragments are built. -/
def processQuestionSpec (i : Nat) (q : Question) (current_source : List Char)
    (endnote_counter : Nat) : List Frag × List Char × Nat :=
  let number := q.number.getD (i + 1)
  let emitSource := q.source ≠ [] ∧ q.source ≠ current_source
  let sourceFrags :=
    if emitSource then
      [Frag.para q.source (STYLE_MAP "source").style (STYLE_MAP "source").paraPr
        (STYLE_MAP "source").charPr]
    else []
  let current_source := if emitSource then q.source else current_source
  let instruction := process_formatting_markers (split_question_text q.text).1
  let passage := process_formatting_markers (split_question_text q.text).2.1
  let options_text := process_formatting_markers (split_question_text q.text).2.2
  let instruction_text :=
    if instruction ≠ [] then natChars number ++ ". ".data ++ instruction
    else natChars number ++ ".".data
  let sInst := STYLE_MAP "instruction"
  let hasNote := q.answer ≠ [] ∨ q.explanation ≠ []
  let instFrags :=
    if hasNote then
      let endnote_parts :=
        (if q.answer ≠ [] then ["정답: ".data ++ q.answer] else []) ++
        (if q.explanation ≠ [] then ["해설: ".data ++ q.explanation] else [])
      let endnote_content := joinSep " | ".data endnote_parts
      let sNote := STYLE_MAP "endnote"
      [Frag.paraEndnote instruction_text sInst.style sInst.paraPr sInst.charPr
        endnote_content endnote_counter sNote.charPr sNote.paraPr]
    else [Frag.para instruction_text sInst.style sInst.paraPr sInst.charPr]
  let endnote_counter := if hasNote then endnote_counter + 1 else endnote_counter
  let sStem := STYLE_MAP "stem"
  let stemFrags :=
    if passage ≠ [] then
      (((splitChar '\n' passage).map strip).filter (· ≠ [])).map
        (fun line => Frag.para line sStem.style sStem.paraPr sStem.charPr)
    else []
  let sOpt := STYLE_MAP "options"
  let optFrags :=
    if options_text ≠ [] then
      (((splitChar '\n' options_text).map strip).filter (· ≠ [])).map
        (fun line => Frag.para line sOpt.style sOpt.paraPr sOpt.charPr)
    else []
  let spacer := Frag.para [] sStem.style sStem.paraPr sStem.charPr
  (sourceFrags ++ instFrags ++ stemFrags ++ optFrags ++ [spacer],
    current_source, endnote_counter)

/-- Modelled from the spec: the assembly loop built on the normalizing
per-question step `processQuestionSpec`. -/
def convertLoopSpec : List Question → Nat → List Char → Nat → List Frag
  | [], _, _, _ => []
  | q :: rest, i, cs, ec =>
    let (frs, cs', ec') := processQuestionSpec i q cs ec
    frs ++ convertLoopSpec rest (i + 1) cs' ec'

/-- Modelled from the spec: all content fragments of one assembly call with
normalization, as §4.5 words it. -/
def buildFragmentsSpec (questions : List Question) : List Frag :=
  convertLoopSpec questions 0 [] 1

/-- Counterexample to C2: for a question whose text carries a `##...##`
span, the template path emits the raw segmented text `##a##` as a fragment
text, not the normalizer's rewrite `**a**` demanded by the claim — the
template-preserving path never applies `process_formatting_markers`. -/
theorem C2_counterexample :
    (buildFragments [⟨some 1, [], "##a##".data, [], []⟩]).map fragText ≠
      (buildFragmentsSpec [⟨some 1, [], "##a##".data, [], []⟩]).map fragText ∧
    "##a##".data ∈ (buildFragments [⟨some 1, [], "##a##".data, [], []⟩]).map fragText ∧
    "**a**".data ∈ (buildFragmentsSpec [⟨some 1, [], "##a##".data, [], []⟩]).map fragText := by
  decide

/-- Body text of a plain paragraph built from a line is that line. -/
theorem fragText_comp_para (s p c : Nat) :
    (fragText ∘ fun l : List Char => Frag.para l s p c) = id := by
  funext l
  rfl

/-- C2 (amended): in the template-preserving path each question's fragment
texts are built directly from the segmenter's output — the optional source
text, the numbered instruction line, the non-empty stripped stem lines, the
non-empty stripped option lines, and an empty spacer — with no
formatting-normalizer rewrite applied anywhere. -/
theorem C2_no_normalization_amended (i : Nat) (q : Question) (cs : List Char)
    (ec : Nat) :
    (processQuestion i q cs ec).1.map fragText =
      (if q.source ≠ [] ∧ q.source ≠ cs then [q.source] else []) ++
      [instrText i q] ++ bodyLines (split_question_text q.text).2.1 ++
      bodyLines (split_question_text q.text).2.2 ++ [[]] := by
  rw [processQuestion_eq]
  by_cases hs : q.source ≠ [] ∧ q.source ≠ cs <;>
    by_cases hn : q.answer ≠ [] ∨ q.explanation ≠ [] <;>
    simp [hs, hn, fragText, List.map_map, fragText_comp_para]

/-! ## Container frame conditions and template validation (C1, C3) -/

/-- Lookup on a cons container. -/
theorem zipLookup_cons (x : String × List Char) (l : List (String × List Char))
    (p : String) :
    zipLookup (x :: l) p = if x.1 == p then some x.2 else zipLookup l p := by
  by_cases h : x.1 == p <;> simp [zipLookup, List.find?_cons, h]

/-- Replacing only the designated content resource leaves every other
path's payload untouched. -/
theorem zipLookup_map_section (tpl : List (String × List Char))
    (ns : List Char) (p : String) (hp : p ≠ sectionPath) :
    zipLookup (tpl.map (fun e => if e.1 = sectionPath then (e.1, ns) else e)) p =
      zipLookup tpl p := by
  induction tpl with
  | nil => rfl
  | cons e rest ih =>
    by_cases h : e.1 = sectionPath
    · have hne : (e.1 == p) = false := by
        rw [h]
        exact beq_eq_false_iff_ne.mpr (fun hh => hp hh.symm)
      have hps : ¬ sectionPath = p := fun hh => hp hh.symm
      simp [zipLookup_cons, h, hne, ih, hps]
    · by_cases ht : e.1 == p <;> simp [zipLookup_cons, h, ht, ih]

/-- Unfolding of a failing assembly: missing content resource. -/
theorem convert_no_resource (template : List (String × List Char))
    (questions : List Question) (ids : Nat → Nat) (hq : ¬ questions = [])
    (hsec : zipLookup template sectionPath = none) :
    convert_with_template template questions ids =
      .error ConvErr.invalidTemplate := by
  simp only [convert_with_template, hsec, if_neg hq]

/-- Unfolding of a failing assembly: no structural closing marker. -/
theorem convert_no_marker (template : List (String × List Char))
    (questions : List Question) (ids : Nat → Nat) (hq : ¬ questions = [])
    {s : List Char} (hsec : zipLookup template sectionPath = some s)
    (hsplit : splitAtFirst closePTag s = none) :
    convert_with_template template questions ids =
      .error ConvErr.invalidTemplate := by
  simp only [convert_with_template, hsec, hsplit, if_neg hq]

/-- Unfolding of a successful assembly: the output container is the input
container with exactly the content resource's payload replaced by the
spliced section. -/
theorem convert_ok (template : List (String × List Char))
    (questions : List Question) (ids : Nat → Nat) (hq : ¬ questions = [])
    {s pre post : List Char} (hsec : zipLookup template sectionPath = some s)
    (hsplit : splitAtFirst closePTag s = some (pre, post)) :
    convert_with_template template questions ids =
      .ok (template.map (fun e =>
        if e.1 = sectionPath then
          (e.1, pre ++ renderFrags ids 0 (buildFragments questions) ++
            closeSecTag)
        else e)) := by
  simp only [convert_with_template, hsec, hsplit, if_neg hq]

/-- C1: whenever the template-preserving assembly succeeds (non-empty
question list, `Except.ok`), the output container has exactly the input's
resource-path list, and every resource other than the designated content
resource `Contents/section0.xml` keeps a byte-identical payload — only that
one path's payload is replaced. -/
theorem C1_container_frame (template : List (String × List Char))
    (questions : List Question) (ids : Nat → Nat)
    (out : List (String × List Char)) (hq : questions ≠ [])
    (hok : convert_with_template template questions ids = .ok out) :
    out.map Prod.fst = template.map Prod.fst ∧
    ∀ p : String, p ≠ sectionPath → zipLookup out p = zipLookup template p := by
  rcases hsec : zipLookup template sectionPath with _ | section_xml
  · rw [convert_no_resource template questions ids hq hsec] at hok
    simp at hok
  · rcases hsplit : splitAtFirst closePTag section_xml with _ | ⟨pre, post⟩
    · rw [convert_no_marker template questions ids hq hsec hsplit] at hok
      simp at hok
    · rw [convert_ok template questions ids hq hsec hsplit] at hok
      simp only [Except.ok.injEq] at hok
      subst hok
      constructor
      · rw [List.map_map]
        apply List.map_congr_left
        intro e _
        by_cases h : e.1 = sectionPath <;> simp [h]
      · intro p hp
        exact zipLookup_map_section template _ p hp

/-- Concrete three-resource template for the C1 witness. -/
def C1_tpl : List (String × List Char) :=
  [("mimetype", "application/hwp+zip".data),
   (sectionPath, "<hs:sec><hp:p>layout</hp:p><hp:p>old</hp:p></hs:sec>".data),
   ("Contents/header.xml", "<head/>".data)]

/-- Concrete one-question input for the C1 witness. -/
def C1_qs : List Question :=
  [⟨none, "출처".data, "[문제] 질문\n지문\n① 하나\n② 둘".data, "①".data,
    "설명".data⟩]

/-- Concrete identifier supply for the C1 witness. -/
def C1_ids : Nat → Nat := fun k => 100000000 + k

/-- The successful output container of the C1 witness run. -/
def C1_out : List (String × List Char) :=
  match convert_with_template C1_tpl C1_qs C1_ids with
  | .ok o => o
  | .error _ => []

/-- Witness for C1: the concrete assembly succeeds, keeps the path list of
the template, and keeps the header resource byte-identical. -/
theorem C1_container_frame_witness :
    convert_with_template C1_tpl C1_qs C1_ids = Except.ok C1_out ∧
    C1_out.map Prod.fst = C1_tpl.map Prod.fst ∧
    zipLookup C1_out "Contents/header.xml" =
      zipLookup C1_tpl "Contents/header.xml" := by
  have hok : convert_with_template C1_tpl C1_qs C1_ids = Except.ok C1_out := rfl
  have h := C1_container_frame C1_tpl C1_qs C1_ids C1_out (by decide) hok
  exact ⟨hok, h.1, h.2 "Contents/header.xml" (by decide)⟩

/-- A search for a non-empty pattern fails exactly on pattern-free text
(`str.find` returning `-1`). -/
theorem splitAtFirst_eq_none_iff {pat : List Char} (hne : pat ≠ []) :
    ∀ l, splitAtFirst pat l = none ↔ containsSub pat l = false := by
  intro l
  induction l with
  | nil =>
    simp [splitAtFirst, containsSub, List.isEmpty_iff, hne]
  | cons c rest ih =>
    by_cases hp : pat.isPrefixOf (c :: rest)
    · simp [splitAtFirst, containsSub, hp]
    · simp only [splitAtFirst, containsSub, hp, Bool.false_or,
        if_neg (by simpa using hp)]
      rcases hs : splitAtFirst pat rest with _ | ⟨pre, post⟩
      · simpa [hs] using ih
      · simp only [hs]
        simp only [hs] at ih
        constructor
        · intro hcontra
          exact absurd hcontra (by simp)
        · intro hfree
          exact absurd hfree (by simp [← ih])

/-- C3: with a non-empty question list, the template-preserving assembly
fails with the `InvalidTemplate` condition exactly when the designated
content resource `Contents/section0.xml` is absent from the template, or
when its text contains no `</hp:p>` closing marker.  In the `Except` model
an error carries no output container at all, so no partial output is
produced. -/
theorem C3_invalid_template (template : List (String × List Char))
    (questions : List Question) (ids : Nat → Nat) (hq : questions ≠ []) :
    (convert_with_template template questions ids =
        .error ConvErr.invalidTemplate) ↔
      (zipLookup template sectionPath = none ∨
        ∃ s, zipLookup template sectionPath = some s ∧
          containsSub closePTag s = false) := by
  rcases hsec : zipLookup template sectionPath with _ | s
  · rw [convert_no_resource template questions ids hq hsec]
    simp
  · rcases hsplit : splitAtFirst closePTag s with _ | ⟨pre, post⟩
    · rw [convert_no_marker template questions ids hq hsec hsplit]
      have := (splitAtFirst_eq_none_iff (by decide) s).mp hsplit
      simp [hsec, this]
    · rw [convert_ok template questions ids hq hsec hsplit]
      have : ¬ containsSub closePTag s = false := by
        intro hfree
        rw [← splitAtFirst_eq_none_iff (by decide) s] at hfree
        rw [hsplit] at hfree
        exact absurd hfree (by simp)
      simp [hsec, this]

/-- Witness for C3: a template without the content resource is rejected
with `InvalidTemplate`. -/
theorem C3_invalid_template_witness :
    convert_with_template [("mimetype", "m".data)]
      [⟨none, [], [], [], []⟩] (fun _ => 0) =
      .error ConvErr.invalidTemplate :=
  (C3_invalid_template [("mimetype", "m".data)] [⟨none, [], [], [], []⟩]
    (fun _ => 0) (by decide)).mpr (Or.inl (by decide))

/-! ## Idempotence of the formatting normalizer (C7) -/

/-- The hash rewrite is the identity on hash-free text, for any fuel. -/
theorem subHashF_id : ∀ (f : Nat) (t : List Char), '#' ∉ t → subHashF f t = t := by
  intro f
  induction f with
  | zero => intro t _; rfl
  | succ f ih =>
    intro t h
    cases t with
    | nil => rfl
    | cons c rest =>
      have hc : ¬ c = '#' := fun hc => h (hc ▸ List.mem_cons_self c rest)
      have hrest : '#' ∉ rest := fun hm => h (List.mem_cons_of_mem c hm)
      simp only [subHashF, if_neg hc]
      rw [ih rest hrest]

/-- The table rewrite is the identity on text without a case-insensitive
`<table>` tag, for any fuel. -/
theorem subTableF_id : ∀ (f : Nat) (t : List Char),
    hasOpenTag t = false → subTableF f t = t := by
  intro f
  induction f with
  | zero => intro t _; rfl
  | succ f ih =>
    intro t h
    cases t with
    | nil => rfl
    | cons c rest =>
      rw [hasOpenTag, Bool.or_eq_false_iff] at h
      simp only [subTableF, h.1, Bool.false_eq_true, if_false]
      rw [ih rest h.2]

/-- C7 (amended): the formatting normalizer is the identity — hence
idempotent — on any text free of its markers, that is, containing no hash
character and no case-insensitive `<table>` tag. -/
theorem C7_normalize_idempotent_amended (t : List Char) (h1 : '#' ∉ t)
    (h2 : hasOpenTag t = false) :
    process_formatting_markers (process_formatting_markers t) =
      process_formatting_markers t := by
  have e1 : process_formatting_markers t = t := by
    unfold process_formatting_markers subHash subTable
    rw [subHashF_id t.length t h1]
    rw [subTableF_id t.length t h2]
  rw [e1, e1]

/-- Witness for C7 at a concrete marker-free text with other markdown-style
punctuation. -/
theorem C7_normalize_idempotent_amended_witness :
    process_formatting_markers (process_formatting_markers
      "hello **x** _y_!".data) =
      process_formatting_markers "hello **x** _y_!".data :=
  C7_normalize_idempotent_amended "hello **x** _y_!".data (by decide) (by decide)

/-- Counterexample to C7 as stated: on nested table tags the normalizer is
not idempotent.  The first pass rewrites the outer-opening/inner-closing
span and leaves a dangling `<table>` inside the fence and a dangling
`</table>` after it; the second pass then matches those two leftovers and
rewrites again. -/
theorem C7_counterexample :
    process_formatting_markers (process_formatting_markers
      "<table><table></table></table>".data) ≠
      process_formatting_markers "<table><table></table></table>".data := by
  decide

/-! ## Answer/explanation marker stripping (C4) -/

/-- Prefix of the text strictly before the first occurrence of either the
`[정답]` or the `[해설]` marker (the whole text when neither occurs); used
to state what the segmenter keeps. -/
def cutBoth : List Char → List Char
  | [] => []
  | c :: rest =>
    if markerAnswer.isPrefixOf (c :: rest) || markerExpl.isPrefixOf (c :: rest)
    then []
    else c :: cutBoth rest

/-- Truncation keeps a prefix of the input. -/
theorem dropFrom_isPre (m : List Char) : ∀ t, dropFrom m t <+: t := by
  intro t
  induction t with
  | nil => simp [dropFrom]
  | cons c rest ih =>
    by_cases h : m.isPrefixOf (c :: rest)
    · simp [dropFrom, h]
    · simp only [dropFrom, if_neg h]
      exact List.cons_prefix_cons.mpr ⟨rfl, ih⟩

/-- Truncation at a pattern that does not occur is the identity. -/
theorem dropFrom_eq_self {m : List Char} : ∀ {t}, ¬ m <:+: t → dropFrom m t = t := by
  intro t
  induction t with
  | nil => intro _; rfl
  | cons c rest ih =>
    intro h
    have hp : ¬ m.isPrefixOf (c :: rest) = true := fun hp =>
      h (List.isPrefixOf_iff_prefix.mp hp).isInfix
    have hrest : ¬ m <:+: rest := fun hi => h (List.infix_cons hi)
    simp only [dropFrom, if_neg hp]
    rw [ih hrest]

/-- The truncated text never contains the pattern. -/
theorem not_infix_dropFrom {m : List Char} (hm : m ≠ []) :
    ∀ t, ¬ m <:+: dropFrom m t := by
  intro t
  induction t with
  | nil =>
    simp only [dropFrom]
    intro h
    exact hm (List.sublist_nil.mp h.sublist)
  | cons c rest ih =>
    by_cases h : m.isPrefixOf (c :: rest)
    · simp only [dropFrom, if_pos h]
      intro hi
      exact hm (List.sublist_nil.mp hi.sublist)
    · simp only [dropFrom, if_neg h]
      intro hi
      rcases List.infix_cons_iff.mp hi with hpre | hin
      · exact h (List.isPrefixOf_iff_prefix.mpr
          (hpre.trans (List.cons_prefix_cons.mpr ⟨rfl, dropFrom_isPre m rest⟩)))
      · exact ih hin

/-- The before-first-marker prefix is a prefix of the input. -/
theorem cutBoth_isPre : ∀ t, cutBoth t <+: t := by
  intro t
  induction t with
  | nil => simp [cutBoth]
  | cons c rest ih =>
    by_cases h : (markerAnswer.isPrefixOf (c :: rest) ||
        markerExpl.isPrefixOf (c :: rest)) = true
    · simp [cutBoth, h]
    · simp only [cutBoth, if_neg h]
      exact List.cons_prefix_cons.mpr ⟨rfl, ih⟩

/-- The before-first-marker prefix contains neither marker. -/
theorem cutBoth_marker_free :
    ∀ t, ¬ markerAnswer <:+: cutBoth t ∧ ¬ markerExpl <:+: cutBoth t := by
  intro t
  induction t with
  | nil =>
    constructor <;> · intro h; simp [markerAnswer, markerExpl, cutBoth] at h
  | cons c rest ih =>
    by_cases h : (markerAnswer.isPrefixOf (c :: rest) ||
        markerExpl.isPrefixOf (c :: rest)) = true
    · rw [show cutBoth (c :: rest) = [] by simp [cutBoth, h]]
      constructor <;> · intro hi
                        have := List.sublist_nil.mp hi.sublist
                        simp [markerAnswer, markerExpl] at this
    · rw [show cutBoth (c :: rest) = c :: cutBoth rest by simp [cutBoth, h]]
      rw [Bool.or_eq_true, not_or] at h
      constructor
      · intro hi
        rcases List.infix_cons_iff.mp hi with hpre | hin
        · exact h.1 (List.isPrefixOf_iff_prefix.mpr
            (hpre.trans (List.cons_prefix_cons.mpr ⟨rfl, cutBoth_isPre rest⟩)))
        · exact ih.1 hin
      · intro hi
        rcases List.infix_cons_iff.mp hi with hpre | hin
        · exact h.2 (List.isPrefixOf_iff_prefix.mpr
            (hpre.trans (List.cons_prefix_cons.mpr ⟨rfl, cutBoth_isPre rest⟩)))
        · exact ih.2 hin

/-- Sequential truncation at `[정답]` and then `[해설]` is truncation at
the first occurrence of either marker. -/
theorem dropFrom_both_eq_cutBoth :
    ∀ t, dropFrom markerExpl (dropFrom markerAnswer t) = cutBoth t := by
  intro t
  induction t with
  | nil => rfl
  | cons c rest ih =>
    by_cases hA : markerAnswer.isPrefixOf (c :: rest) = true
    · simp [dropFrom, cutBoth, hA]
    · by_cases hE : markerExpl.isPrefixOf (c :: rest) = true
      · rw [show cutBoth (c :: rest) = [] by simp [cutBoth, hE]]
        rw [show dropFrom markerAnswer (c :: rest) =
            c :: dropFrom markerAnswer rest by simp [dropFrom, hA]]
        obtain ⟨u, hu⟩ := List.isPrefixOf_iff_prefix.mp hE
        rw [show markerExpl = '[' :: '해' :: '설' :: ']' :: [] from rfl] at hu
        have hc : c = '[' := (List.cons.injEq _ _ _ _ ▸ hu).1.symm
        have hrest : rest = '해' :: '설' :: ']' :: u := by
          have := (List.cons.injEq _ _ _ _ ▸ hu).2
          simpa using this.symm
        subst hc
        subst hrest
        have hAno : ∀ (d : Char) (X : List Char),
            markerAnswer.isPrefixOf (d :: X) = false →
            dropFrom markerAnswer (d :: X) = d :: dropFrom markerAnswer X := by
          intro d X h
          rw [dropFrom, if_neg (by simp [h])]
        rw [hAno '해' _ rfl, hAno '설' _ rfl, hAno ']' _ rfl]
        have hcond : markerExpl.isPrefixOf
            ('[' :: '해' :: '설' :: ']' :: dropFrom markerAnswer u) = true :=
          List.isPrefixOf_iff_prefix.mpr ⟨dropFrom markerAnswer u, rfl⟩
        rw [dropFrom, if_pos hcond]
      · rw [show cutBoth (c :: rest) = c :: cutBoth rest by
            simp [cutBoth, hA, hE]]
        rw [show dropFrom markerAnswer (c :: rest) =
            c :: dropFrom markerAnswer rest by simp [dropFrom, hA]]
        have hE' : ¬ markerExpl.isPrefixOf (c :: dropFrom markerAnswer rest) = true := by
          intro hp
          exact hE (List.isPrefixOf_iff_prefix.mpr
            ((List.isPrefixOf_iff_prefix.mp hp).trans
              (List.cons_prefix_cons.mpr ⟨rfl, dropFrom_isPre markerAnswer rest⟩)))
        rw [dropFrom, if_neg hE', ih]

/-- Unfolding of the trailing strip on a cons cell. -/
theorem stripR_cons_eq (c : Char) (X : List Char) :
    stripR (c :: X) =
      if stripR X = [] then (if isPySpace c then [] else [c])
      else c :: stripR X := rfl

/-- Leading strip is idempotent. -/
theorem stripL_idem (x : List Char) : stripL (stripL x) = stripL x := by
  rcases h : stripL x with _ | ⟨d, ds⟩
  · rfl
  · have hd : isPySpace d = false := dropWhile_eq_cons_head isPySpace x d ds h
    simp [stripL, List.dropWhile_cons, hd]

/-- Trailing strip is idempotent. -/
theorem stripR_idem : ∀ x : List Char, stripR (stripR x) = stripR x := by
  intro x
  induction x with
  | nil => rfl
  | cons c r ih =>
    rw [stripR_cons_eq]
    by_cases h : stripR r = []
    · rw [if_pos h]
      by_cases hc : isPySpace c
      · rw [if_pos hc]
        rfl
      · rw [if_neg hc]
        rw [stripR_cons_eq]
        simp [stripR, hc]
    · rw [if_neg h]
      rw [stripR_cons_eq, ih, if_neg h]

/-- Leading and trailing strips commute. -/
theorem stripLR_comm : ∀ x : List Char, stripL (stripR x) = stripR (stripL x) := by
  intro x
  induction x with
  | nil => rfl
  | cons c r ih =>
    by_cases hc : isPySpace c
    · have hL : stripL (c :: r) = stripL r := by
        simp [stripL, List.dropWhile_cons, hc]
      rw [hL, ← ih, stripR_cons_eq]
      by_cases h : stripR r = []
      · rw [if_pos h, if_pos hc, h]
      · rw [if_neg h]
        simp [stripL, List.dropWhile_cons, hc]
    · have hL : stripL (c :: r) = c :: r := by
        simp [stripL, List.dropWhile_cons, hc]
      rw [hL, stripR_cons_eq]
      by_cases h : stripR r = []
      · rw [if_pos h, if_neg hc]
        simp [stripL, List.dropWhile_cons, hc]
      · rw [if_neg h]
        simp [stripL, List.dropWhile_cons, hc]

/-- Full strip is idempotent. -/
theorem strip_idem (x : List Char) : strip (strip x) = strip x := by
  unfold strip
  rw [show stripR (stripL (stripR x)) = stripL (stripR (stripR x)) from
    (stripLR_comm (stripR x)).symm]
  rw [stripR_idem, stripL_idem]

/-- Trailing strip over an append. -/
theorem stripR_append : ∀ X Y : List Char,
    stripR (X ++ Y) = if stripR Y = [] then stripR X else X ++ stripR Y := by
  intro X Y
  induction X with
  | nil => by_cases h : stripR Y = [] <;> simp [h, stripR]
  | cons c X' ih =>
    rw [List.cons_append, stripR_cons_eq, ih]
    by_cases h : stripR Y = []
    · rw [if_pos h, if_pos h, ← stripR_cons_eq]
    · rw [if_neg h, if_neg h]
      have hne : ¬ X' ++ stripR Y = [] := by simp [h]
      rw [if_neg hne, List.cons_append]

/-- A vanishing trailing strip means the text is all whitespace. -/
theorem stripR_eq_nil : ∀ {r : List Char}, stripR r = [] →
    ∀ c ∈ r, isPySpace c = true := by
  intro r
  induction r with
  | nil => intro _ c hc; simp at hc
  | cons c r' ih =>
    intro h d hd
    rw [stripR_cons_eq] at h
    by_cases hr : stripR r' = []
    · rw [if_pos hr] at h
      by_cases hc : isPySpace c
      · rcases List.mem_cons.mp hd with rfl | hd'
        · exact hc
        · exact ih hr d hd'
      · rw [if_neg hc] at h
        cases h
    · rw [if_neg hr] at h
      cases h

/-- Truncation at a non-whitespace-headed pattern is the identity on
all-whitespace text. -/
theorem dropFrom_all_ws (m0 : Char) (mr : List Char)
    (hw : isPySpace m0 = false) :
    ∀ r : List Char, (∀ c ∈ r, isPySpace c = true) →
      dropFrom (m0 :: mr) r = r := by
  intro r
  induction r with
  | nil => intro _; rfl
  | cons c r' ih =>
    intro h
    have hc : isPySpace c = true := h c (List.mem_cons_self c r')
    have hne : ¬ (m0 :: mr).isPrefixOf (c :: r') = true := by
      intro hp
      obtain ⟨w, hw2⟩ := List.isPrefixOf_iff_prefix.mp hp
      have hm : m0 = c := by
        have := congrArg List.head? hw2
        simpa using this
      rw [hm, hc] at hw
      cases hw
    rw [dropFrom, if_neg hne, ih (fun d hd => h d (List.mem_cons_of_mem c hd))]

/-- Truncation commutes with the leading strip when the pattern starts
with a non-whitespace character. -/
theorem dropFrom_stripL (m0 : Char) (mr : List Char)
    (hw : isPySpace m0 = false) :
    ∀ x : List Char,
      dropFrom (m0 :: mr) (stripL x) = stripL (dropFrom (m0 :: mr) x) := by
  intro x
  induction x with
  | nil => rfl
  | cons c rest ih =>
    by_cases hc : isPySpace c
    · have hL : stripL (c :: rest) = stripL rest := by
        simp [stripL, List.dropWhile_cons, hc]
      have hne : ¬ (m0 :: mr).isPrefixOf (c :: rest) = true := by
        intro hp
        obtain ⟨w, hw2⟩ := List.isPrefixOf_iff_prefix.mp hp
        have hm : m0 = c := by
          have := congrArg List.head? hw2
          simpa using this
        rw [hm, hc] at hw
        cases hw
      rw [hL, ih, dropFrom, if_neg hne]
      simp [stripL, List.dropWhile_cons, hc]
    · have hL : stripL (c :: rest) = c :: rest := by
        simp [stripL, List.dropWhile_cons, hc]
      rw [hL]
      by_cases hp : (m0 :: mr).isPrefixOf (c :: rest) = true
      · rw [dropFrom, if_pos hp]
        rfl
      · rw [dropFrom, if_neg hp]
        simp [stripL, List.dropWhile_cons, hc]

/-- The `[해설]` marker survives a trailing strip. -/
theorem stripR_markerExpl : stripR markerExpl = markerExpl := by decide

/-- Truncation at `[해설]` ignores an inner trailing strip as far as the
outer trailing strip can see. -/
theorem stripR_dropFrom_stripR : ∀ z : List Char,
    stripR (dropFrom markerExpl (stripR z)) =
      stripR (dropFrom markerExpl z) := by
  intro z
  induction z with
  | nil => rfl
  | cons c r ih =>
    by_cases hpre : markerExpl.isPrefixOf (c :: r) = true
    · rw [show dropFrom markerExpl (c :: r) = [] by rw [dropFrom, if_pos hpre]]
      obtain ⟨B, hB⟩ := List.isPrefixOf_iff_prefix.mp hpre
      rw [← hB, stripR_append]
      by_cases hBr : stripR B = []
      · rw [if_pos hBr, stripR_markerExpl]
        rw [show dropFrom markerExpl markerExpl = [] from by
          show dropFrom markerExpl ('[' :: '해' :: '설' :: ']' :: []) = []
          rw [dropFrom, if_pos (by decide)]]
      · rw [if_neg hBr]
        rw [show dropFrom markerExpl (markerExpl ++ stripR B) = [] from by
          show dropFrom markerExpl
            ('[' :: '해' :: '설' :: ']' :: ([] ++ stripR B)) = []
          have hcond : markerExpl.isPrefixOf
              ('[' :: '해' :: '설' :: ']' :: ([] ++ stripR B)) = true :=
            List.isPrefixOf_iff_prefix.mpr ⟨[] ++ stripR B, rfl⟩
          rw [dropFrom, if_pos hcond]]
    · rw [show dropFrom markerExpl (c :: r) = c :: dropFrom markerExpl r by
        rw [dropFrom, if_neg hpre]]
      by_cases hs : stripR r = []
      · have hws : ∀ d ∈ r, isPySpace d = true := stripR_eq_nil hs
        have hdr : dropFrom markerExpl r = r :=
          dropFrom_all_ws '[' "해설]".data (by decide) r hws
        by_cases hc : isPySpace c
        · have h1 : stripR (c :: r) = [] := by
            rw [stripR_cons_eq, if_pos hs, if_pos hc]
          rw [hdr, h1]
          rfl
        · have h1 : stripR (c :: r) = [c] := by
            rw [stripR_cons_eq, if_pos hs, if_neg hc]
          have hnp : ¬ markerExpl.isPrefixOf [c] = true := by
            intro hp
            have := (List.isPrefixOf_iff_prefix.mp hp).length_le
            rw [show markerExpl.length = 4 from by decide] at this
            simp at this
          have h2 : dropFrom markerExpl [c] = [c] := by
            rw [dropFrom, if_neg hnp]
            rfl
          rw [hdr, h1, h2]
          rw [stripR_cons_eq]
          simp [stripR, hc]
      · have h1 : stripR (c :: r) = c :: stripR r := by
          rw [stripR_cons_eq, if_neg hs]
        have hpre2 : ¬ markerExpl.isPrefixOf (c :: stripR r) = true := by
          intro hp
          apply hpre
          exact List.isPrefixOf_iff_prefix.mpr
            ((List.isPrefixOf_iff_prefix.mp hp).trans
              (List.cons_prefix_cons.mpr ⟨rfl, stripR_isPre r⟩))
        rw [h1]
        rw [show dropFrom markerExpl (c :: stripR r) =
            c :: dropFrom markerExpl (stripR r) by rw [dropFrom, if_neg hpre2]]
        rw [stripR_cons_eq, stripR_cons_eq, ih]

/-- The whole answer/explanation cleaning pass equals a single truncation
at the first marker of either kind, followed by one strip. -/
theorem cleanText_eq_cutBoth (t : List Char) :
    cleanText t = strip (cutBoth t) := by
  unfold cleanText strip
  rw [show dropFrom markerExpl (stripL (stripR (dropFrom markerAnswer t))) =
      stripL (dropFrom markerExpl (stripR (dropFrom markerAnswer t))) from
    dropFrom_stripL '[' "해설]".data (by decide) _]
  rw [show stripR (stripL (dropFrom markerExpl
      (stripR (dropFrom markerAnswer t)))) =
    stripL (stripR (dropFrom markerExpl (stripR (dropFrom markerAnswer t))))
    from (stripLR_comm _).symm]
  rw [stripL_idem, stripR_dropFrom_stripR, dropFrom_both_eq_cutBoth]

/-- Cleaning the already-cut text just strips it. -/
theorem cleanText_cutBoth (t : List Char) :
    cleanText (cutBoth t) = strip (cutBoth t) := by
  unfold cleanText
  rw [dropFrom_eq_self (cutBoth_marker_free t).1]
  rw [dropFrom_eq_self (fun hi =>
    (cutBoth_marker_free t).2 (hi.trans (strip_within (cutBoth t))))]
  exact strip_idem _

/-- Cleaned line lists agree between a text and its before-marker
prefix. -/
theorem qlines_cutBoth (t : List Char) : qlines t = qlines (cutBoth t) := by
  unfold qlines
  rw [cleanText_eq_cutBoth, cleanText_cutBoth]

/-- The segmenter depends on its input only through the cleaned line
list. -/
theorem split_congr {t t' : List Char} (h : qlines t = qlines t') :
    split_question_text t = split_question_text t' := by
  unfold split_question_text
  rw [h]

/-- A prefix that avoids the separator cannot reach past it. -/
theorem isPre_append_sep {sep : Char} {B : List Char} :
    ∀ m : List Char, sep ∉ m → ∀ A : List Char,
      m <+: (A ++ sep :: B) → m <+: A := by
  intro m
  induction m with
  | nil => intro _ A _; exact List.nil_prefix
  | cons d m' ih =>
    intro hsep A h
    cases A with
    | nil =>
      rw [List.nil_append] at h
      rcases List.cons_prefix_cons.mp h with ⟨hd, _⟩
      exact absurd (hd ▸ List.mem_cons_self d m') hsep
    | cons a A' =>
      rw [List.cons_append] at h
      rcases List.cons_prefix_cons.mp h with ⟨rfl, h'⟩
      have hsep' : sep ∉ m' := fun hm => hsep (List.mem_cons_of_mem _ hm)
      exact List.cons_prefix_cons.mpr ⟨rfl, ih hsep' A' h'⟩

/-- An infix that avoids the separator lies entirely on one side of it. -/
theorem infix_append_sep {sep : Char} {B : List Char}
    (m : List Char) (hsep : sep ∉ m) :
    ∀ A : List Char, m <:+: (A ++ sep :: B) → m <:+: A ∨ m <:+: B := by
  intro A
  induction A with
  | nil =>
    intro h
    rw [List.nil_append] at h
    rcases List.infix_cons_iff.mp h with hpre | hin
    · cases m with
      | nil => exact Or.inl List.nil_infix
      | cons d m' =>
        rcases List.cons_prefix_cons.mp hpre with ⟨hd, _⟩
        exact absurd (hd ▸ List.mem_cons_self d m') hsep
    · exact Or.inr hin
  | cons a A' ih =>
    intro h
    rw [List.cons_append] at h
    rcases List.infix_cons_iff.mp h with hpre | hin
    · exact Or.inl (isPre_append_sep m hsep (a :: A')
        (by rwa [List.cons_append])).isInfix
    · rcases ih hin with h1 | h2
      · exact Or.inl (List.infix_cons h1)
      · exact Or.inr h2

/-- A newline-free pattern absent from every line is absent from the
newline-joined block. -/
theorem not_infix_joinSep {m : List Char} (hm : m ≠ []) (hnl : '\n' ∉ m) :
    ∀ L : List (List Char), (∀ p ∈ L, ¬ m <:+: p) →
      ¬ m <:+: joinSep "\n".data L := by
  intro L
  induction L with
  | nil =>
    intro _ h
    exact hm (List.sublist_nil.mp h.sublist)
  | cons a R ih =>
    intro hfree
    cases R with
    | nil => exact hfree a (List.mem_cons_self a [])
    | cons b R' =>
      intro h
      rw [show joinSep "\n".data (a :: b :: R') =
          a ++ '\n' :: joinSep "\n".data (b :: R') from by simp [joinSep]] at h
      rcases infix_append_sep m hnl a h with h1 | h2
      · exact hfree a (List.mem_cons_self _ _) h1
      · exact ih (fun p hp => hfree p (List.mem_cons_of_mem _ hp)) h2

/-- No cleaned line contains the `[정답]` or `[해설]` marker. -/
theorem qlines_marker_free {t l : List Char} (hl : l ∈ qlines t) :
    ¬ markerAnswer <:+: l ∧ ¬ markerExpl <:+: l := by
  unfold qlines at hl
  rcases List.mem_filter.mp hl with ⟨hmem, _⟩
  rcases List.mem_map.mp hmem with ⟨piece, hpiece, rfl⟩
  have hinf : piece <:+: cleanText t :=
    mem_splitChar_within '\n' _ piece hpiece
  rw [cleanText_eq_cutBoth] at hinf
  have hinf2 : strip piece <:+: cutBoth t :=
    (strip_within piece).trans (hinf.trans (strip_within (cutBoth t)))
  exact ⟨fun h => (cutBoth_marker_free t).1 (h.trans hinf2),
         fun h => (cutBoth_marker_free t).2 (h.trans hinf2)⟩

/-- Neither marker survives into the segmenter's stem or options
output. -/
theorem stem_opts_marker_free (t : List Char) :
    (¬ markerAnswer <:+: (split_question_text t).2.1 ∧
      ¬ markerExpl <:+: (split_question_text t).2.1) ∧
    (¬ markerAnswer <:+: (split_question_text t).2.2 ∧
      ¬ markerExpl <:+: (split_question_text t).2.2) := by
  have key : ∀ X : List (List Char), (∀ l ∈ X, l ∈ qlines t) →
      ∀ m : List Char, m = markerAnswer ∨ m = markerExpl →
      ¬ m <:+: joinSep "\n".data (scanLines X false).1 ∧
      ¬ m <:+: joinSep "\n".data (scanLines X false).2 := by
    intro X hX m hm
    have hmne : m ≠ [] := by rcases hm with rfl | rfl <;> decide
    have hmnl : '\n' ∉ m := by rcases hm with rfl | rfl <;> decide
    rw [scanLines_false]
    constructor
    · apply not_infix_joinSep hmne hmnl
      intro p hp
      have hpq := hX p (List.takeWhile_subset _ hp)
      rcases hm with rfl | rfl
      · exact (qlines_marker_free hpq).1
      · exact (qlines_marker_free hpq).2
    · apply not_infix_joinSep hmne hmnl
      intro p hp
      have hpq := hX p (List.dropWhile_subset _ hp)
      rcases hm with rfl | rfl
      · exact (qlines_marker_free hpq).1
      · exact (qlines_marker_free hpq).2
  rcases hL : qlines t with _ | ⟨l0, rest⟩
  · have hs : split_question_text t = ([], [], []) := by
      unfold split_question_text
      rw [hL]
    rw [hs]
    exact ⟨⟨by decide, by decide⟩, by decide, by decide⟩
  · have hmem : ∀ l ∈ l0 :: rest, l ∈ qlines t := fun l hl => hL ▸ hl
    rw [split_question_text_cons hL]
    by_cases hc : containsSub markerQuestion l0 = true
    · rw [if_pos hc]
      have hA := key rest (fun l hl => hmem l (List.mem_cons_of_mem l0 hl))
        markerAnswer (Or.inl rfl)
      have hE := key rest (fun l hl => hmem l (List.mem_cons_of_mem l0 hl))
        markerExpl (Or.inr rfl)
      exact ⟨⟨hA.1, hE.1⟩, hA.2, hE.2⟩
    · rw [if_neg hc]
      have hA := key (l0 :: rest) hmem markerAnswer (Or.inl rfl)
      have hE := key (l0 :: rest) hmem markerExpl (Or.inr rfl)
      exact ⟨⟨hA.1, hE.1⟩, hA.2, hE.2⟩

/-- C4 (amended): for any text containing a `[정답]` or `[해설]` marker,
the segmenter's result equals the result on the prefix strictly before the
first such marker — so no content from or after the marker reaches any
output — and the stem and options outputs contain neither marker.  (The
instruction output alone can exhibit a marker, but only one spliced
together by `[문제]`-removal, never one copied from the input; see the
counterexample to the claim as stated.) -/
theorem C4_marker_stripping (t : List Char)
    (_hm : markerAnswer <:+: t ∨ markerExpl <:+: t) :
    split_question_text t = split_question_text (cutBoth t) ∧
    cutBoth t <+: t ∧
    (¬ markerAnswer <:+: cutBoth t ∧ ¬ markerExpl <:+: cutBoth t) ∧
    (¬ markerAnswer <:+: (split_question_text t).2.1 ∧
      ¬ markerExpl <:+: (split_question_text t).2.1) ∧
    (¬ markerAnswer <:+: (split_question_text t).2.2 ∧
      ¬ markerExpl <:+: (split_question_text t).2.2) :=
  ⟨split_congr (qlines_cutBoth t), cutBoth_isPre t, cutBoth_marker_free t,
    (stem_opts_marker_free t).1, (stem_opts_marker_free t).2⟩

/-- Witness for C4 at a concrete two-line text with a trailing `[정답]`
section. -/
theorem C4_marker_stripping_witness :
    split_question_text "질문\n[정답] ① 해설도".data =
      split_question_text (cutBoth "질문\n[정답] ① 해설도".data) ∧
    ¬ markerAnswer <:+: (split_question_text "질문\n[정답] ① 해설도".data).2.1 := by
  have h := C4_marker_stripping "질문\n[정답] ① 해설도".data
    (Or.inl (by decide))
  exact ⟨h.1, h.2.2.2.1.1⟩

/-- Counterexample to C4 as stated: in
`"[정[문제]답]A[정답]B"` the text contains a literal `[정답]` marker, yet
the instruction output of the segmenter contains that very marker — the
`[문제]`-removal splices `"[정"` and `"답]"` together after the trailing
`[정답]B` section was stripped. -/
theorem C4_counterexample :
    markerAnswer <:+: "[정[문제]답]A[정답]B".data ∧
    markerAnswer <:+: (split_question_text "[정[문제]답]A[정답]B".data).1 := by
  decide
